import Mathlib

/-!
# SimpleVector / ArrayPtr

A shallow embedding of `src/array_ptr.h` and `src/simple_vector.h`.

Modelling conventions.

* A heap block of `Type` elements is a `List T`; a `Type*` is `Option (List T)`:
  `none` is `nullptr`, `some cells` is the block the pointer owns.  Ownership is
  exclusive in the source, so no two live handles ever share a block and the
  block can travel with its handle.
* `size_t` counters are `Nat`; where the source computes `size_ + 1`,
  `size_ - 1` or `capacity_ * 2` the result wraps around at `2 ^ 64`.
* `Type{}` is `default`.  The cells of a block obtained from `new Type[n]` are
  given by a parameter `raw`, since they are indeterminate for scalar `Type`.
* A moved-from element is left in the state `mv x`, for a parameter `mv`.
* A position (`Iterator`) of a sequence is its offset from `begin()`.
* The reference parameter of `PushBack` is an `Arg`: an object outside the
  sequence, or a cell of the block of the sequence itself.
* Allocation is taken to succeed.
-/

namespace SimpleVec

variable {T : Type}

/-- Number of values of a 64-bit `size_t`. -/
def SIZE_MOD : Nat := 2 ^ 64

/-- The `size_t` subtraction `n - 1`, which wraps to `SIZE_MAX` at zero. -/
def size_pred (n : Nat) : Nat := if n = 0 then SIZE_MOD - 1 else n - 1

/-! ## `std` algorithms on raw ranges -/

/-- The loop `for (; n > 0; --n) *d++ = *first++` of `std::copy` when the source
range comes from a block `src` other than the destination block `dst`.
`f` and `d` are the offsets of `first` and `d_first` in their blocks. -/
def copy_into : Nat → Nat → List T → Nat → List T → List T
  | 0, _, _, _, dst => dst
  | n + 1, f, src, d, dst =>
    match src[f]? with
    | some x => copy_into n (f + 1) src (d + 1) (dst.set d x)
    | none => dst

/-- The same loop of `std::copy(first, last, d_first)` when all three iterators
point into one block `buf`: elements are assigned one by one, from `first`
towards `last`, each read seeing the writes made before it.  This is the order
the standard prescribes and the one every element type with a non-trivial
assignment gets; a library may move trivially copyable elements with `memmove`
instead. -/
def copy_within : Nat → Nat → Nat → List T → List T
  | 0, _, _, buf => buf
  | n + 1, f, d, buf =>
    match buf[f]? with
    | some x => copy_within n (f + 1) (d + 1) (buf.set d x)
    | none => buf

/-- The loop of `std::move(first, last, d_first)` inside one block:
`*d = std::move(*first)` front to back; the source cell keeps `mv x`. -/
def move_within (mv : T → T) : Nat → Nat → Nat → List T → List T
  | 0, _, _, buf => buf
  | n + 1, f, d, buf =>
    match buf[f]? with
    | some x => move_within mv n (f + 1) (d + 1) ((buf.set f (mv x)).set d x)
    | none => buf

/-- What the loop of `std::move(first, last, d_first)` leaves in the source block
when the destination is another block: every cell moved from keeps `mv x`. -/
def move_out (mv : T → T) : Nat → Nat → List T → List T
  | 0, _, src => src
  | n + 1, f, src =>
    match src[f]? with
    | some x => move_out mv n (f + 1) (src.set f (mv x))
    | none => src

/-- The loop `for (; n > 0; --n) *d++ = value`, used for `std::fill` and for the
hand-written default-fill loops. -/
def fill_range : Nat → Nat → T → List T → List T
  | 0, _, _, buf => buf
  | n + 1, d, v, buf => fill_range n (d + 1) v (buf.set d v)

/-- The four-iterator `std::equal` on two ranges. -/
def std_equal [DecidableEq T] : List T → List T → Bool
  | [], [] => true
  | a :: as, b :: bs => decide (a = b) && std_equal as bs
  | _, _ => false

/-- The loop of `std::lexicographical_compare` on two ranges, with `<` on the
elements. -/
def lexicographical_compare [LT T] [DecidableRel (fun a b : T => a < b)] :
    List T → List T → Bool
  | [], [] => false
  | [], _ :: _ => true
  | _ :: _, [] => false
  | a :: as, b :: bs =>
    if a < b then true
    else if b < a then false
    else lexicographical_compare as bs

/-- The loop `for (i = 0; i < n; ++i) *(p + i) = std::move(value)`: every pass
moves from the same object, which is left in the state `mv value`. -/
def move_fill (mv : T → T) : Nat → Nat → T → List T → List T
  | 0, _, _, buf => buf
  | n + 1, d, v, buf => move_fill mv n (d + 1) (mv v) (buf.set d v)

/-! ## `ArrayPtr` -/

/-- The class `ArrayPtr<Type>`: one raw pointer. -/
structure ArrayPtr (T : Type) where
  raw_ptr_ : Option (List T)
deriving DecidableEq, Repr

namespace ArrayPtr

/-- `ArrayPtr() = default`: the null handle. -/
def null : ArrayPtr T := ⟨none⟩

/-- `explicit ArrayPtr(size_t size)`. -/
def alloc (raw : Nat → T) (size : Nat) : ArrayPtr T :=
  if size > 0 then ⟨some ((List.range size).map raw)⟩ else null

/-- The cells reachable through the handle (none for `nullptr`). -/
def cells (a : ArrayPtr T) : List T := a.raw_ptr_.getD []

/-- `ArrayPtr(ArrayPtr&& other)`: returns the new handle and `other` afterwards. -/
def move_ctor (other : ArrayPtr T) : ArrayPtr T × ArrayPtr T :=
  let this : ArrayPtr T := null
  -- other.raw_ptr_ = std::exchange(raw_ptr_, other.raw_ptr_)
  let old := this.raw_ptr_
  ({ raw_ptr_ := other.raw_ptr_ }, { raw_ptr_ := old })

/-- `Release()`: the pointer given up, and the handle afterwards. -/
def Release (a : ArrayPtr T) : Option (List T) × ArrayPtr T :=
  (a.raw_ptr_, { raw_ptr_ := none })

/-- `Get()`. -/
def Get (a : ArrayPtr T) : Option (List T) := a.raw_ptr_

/-- `SetPtr(ptr)`. -/
def SetPtr (_a : ArrayPtr T) (ptr : Option (List T)) : ArrayPtr T :=
  { raw_ptr_ := ptr }

/-- `swap(other)`: both handles afterwards. -/
def swap (a other : ArrayPtr T) : ArrayPtr T × ArrayPtr T :=
  ({ raw_ptr_ := other.raw_ptr_ }, { raw_ptr_ := a.raw_ptr_ })

/-- `operator[]` as an rvalue: `*(raw_ptr_ + index)`.  Reading outside the block
is undefined in the source; the model yields `default` there. -/
def index [Inhabited T] (a : ArrayPtr T) (i : Nat) : T := a.cells.getD i default

/-- Applies an update to the owned block; a null handle owns nothing. -/
def onBlock (a : ArrayPtr T) (g : List T → List T) : ArrayPtr T :=
  { raw_ptr_ := a.raw_ptr_.map g }

/-- `operator[]` as an lvalue: `*(raw_ptr_ + index) = v`. -/
def write (a : ArrayPtr T) (i : Nat) (v : T) : ArrayPtr T :=
  a.onBlock fun b => b.set i v

end ArrayPtr

/-! ## `ReserveProxyObj` -/

/-- The class `ReserveProxyObj`. -/
structure ReserveProxyObj where
  current_capacity : Nat
deriving DecidableEq, Repr

/-- `ReserveProxyObj::GetCapacity()`. -/
def ReserveProxyObj.GetCapacity (o : ReserveProxyObj) : Nat := o.current_capacity

/-- The free function `Reserve(capacity_to_reserve)`. -/
def Reserve (capacity_to_reserve : Nat) : ReserveProxyObj :=
  { current_capacity := capacity_to_reserve }

/-! ## `SimpleVector` -/

/-- What a `const Type&` or `Type&&` parameter of a member function refers to when
the call starts: an object outside the sequence that holds `x`, or cell `j` of
the block the sequence owns (as in `v.PushBack(v[0])`). -/
inductive Arg (T : Type) where
  | outside (x : T)
  | cell (j : Nat)
deriving DecidableEq, Repr

/-- The value read through the reference, given the present state of the block it
may point into.  A cell outside the block cannot be referred to; the model
yields `default` there. -/
def Arg.read [Inhabited T] : Arg T → List T → T
  | .outside x, _ => x
  | .cell j, block => block.getD j default

/-- The class `SimpleVector<Type>`. -/
structure SimpleVector (T : Type) where
  array_ : ArrayPtr T
  size_ : Nat
  capacity_ : Nat
deriving DecidableEq, Repr

/-- What `At` throws. -/
inductive Exception where
  | out_of_range (what : String)
deriving DecidableEq, Repr

namespace SimpleVector

/-- `SimpleVector() noexcept = default`. -/
def empty : SimpleVector T := { array_ := ArrayPtr.null, size_ := 0, capacity_ := 0 }

/-- `GetSize()`. -/
def GetSize (S : SimpleVector T) : Nat := S.size_

/-- `GetCapacity()`. -/
def GetCapacity (S : SimpleVector T) : Nat := S.capacity_

/-- `IsEmpty()`. -/
def IsEmpty (S : SimpleVector T) : Bool := if S.size_ = 0 then true else false

/-- The range `[begin(), end())`: the first `size_` cells of the block. -/
def content (S : SimpleVector T) : List T := S.array_.cells.take S.size_

/-- `operator[](index)` (the `assert` is a precondition). -/
def index [Inhabited T] (S : SimpleVector T) (i : Nat) : T := S.array_.index i

/-- `At(index)`, both overloads: the outcome, and the sequence afterwards. -/
def At [Inhabited T] (S : SimpleVector T) (i : Nat) : Except Exception T × SimpleVector T :=
  if i ≥ S.size_ then
    (.error (.out_of_range "Invalid index: out of range"), S)
  else
    (.ok (S.array_.index i), S)

/-- `Clear()`. -/
def Clear (S : SimpleVector T) : SimpleVector T := { S with size_ := 0 }

/-- `Resize(new_size)`. -/
def Resize [Inhabited T] (raw : Nat → T) (S : SimpleVector T) (new_size : Nat) :
    SimpleVector T :=
  if new_size = 0 then
    S.Clear
  else if new_size ≤ S.size_ then
    { S with size_ := new_size }
  else if new_size ≤ S.capacity_ then
    -- begin = array_.Get() + size_, end = begin + (capacity_ - size_)
    { S with
      array_ := S.array_.onBlock (fill_range (S.capacity_ - S.size_) S.size_ default)
      size_ := new_size }
  else if new_size > S.capacity_ then
    let new_capacity := max new_size (S.capacity_ * 2 % SIZE_MOD)
    let array_tmp : ArrayPtr T := ArrayPtr.alloc raw new_capacity
    -- std::move(begin(), end(), array_tmp.Get()); for the block left behind see
    -- Resize_old_block
    let array_tmp := array_tmp.onBlock (copy_into S.size_ 0 S.array_.cells 0)
    let array_tmp := array_tmp.onBlock (fill_range (new_capacity - S.size_) S.size_ default)
    { array_ := S.array_.SetPtr array_tmp.Release.1
      size_ := new_size
      capacity_ := new_capacity }
  else S

/-- Whether `Resize(new_size)` takes its last branch and replaces the block. -/
def Resize_reallocates (S : SimpleVector T) (new_size : Nat) : Bool :=
  if new_size = 0 then false
  else if new_size ≤ S.size_ then false
  else if new_size ≤ S.capacity_ then false
  else if new_size > S.capacity_ then true
  else false

/-- The block `array_` pointed to when `Resize(new_size)` was called, as the call
leaves it.  In the last branch its elements have been moved from and the block
is given up by `SetPtr` without being freed, so a reference into it can still be
read; in the other branches it is still the block of the sequence. -/
def Resize_old_block [Inhabited T] (raw : Nat → T) (mv : T → T) (S : SimpleVector T)
    (new_size : Nat) : List T :=
  if Resize_reallocates S new_size then move_out mv S.size_ 0 S.array_.cells
  else (Resize raw S new_size).array_.cells

/-- The value `item` holds when `PushBack` assigns it, after `Resize`. -/
def pushed_value [Inhabited T] (raw : Nat → T) (mv : T → T) (S : SimpleVector T)
    (item : Arg T) : T :=
  item.read (Resize_old_block raw mv S ((S.size_ + 1) % SIZE_MOD))

/-- `PushBack(const Type& item)`. -/
def PushBack [Inhabited T] (raw : Nat → T) (mv : T → T) (S : SimpleVector T)
    (item : Arg T) : SimpleVector T :=
  let new_size := (S.size_ + 1) % SIZE_MOD
  let S1 := Resize raw S new_size
  -- array_[size_ - 1] = item: the reference is read here, after Resize
  { S1 with array_ := S1.array_.write (size_pred S1.size_) (pushed_value raw mv S item) }

/-- `PushBack(Type&& item)`: the assignment moves from `item`, so a cell of the
present block that `item` refers to keeps the moved-from state. -/
def PushBack_move [Inhabited T] (raw : Nat → T) (mv : T → T) (S : SimpleVector T)
    (item : Arg T) : SimpleVector T :=
  let new_size := (S.size_ + 1) % SIZE_MOD
  let S1 := Resize raw S new_size
  let x := pushed_value raw mv S item
  -- array_[size_ - 1] = std::move(item)
  let S2 : SimpleVector T :=
    match item with
    | .outside _ => S1
    | .cell j =>
      if Resize_reallocates S new_size then S1
      else { S1 with array_ := S1.array_.write j (mv x) }
  { S2 with array_ := S2.array_.write (size_pred S2.size_) x }

/-- `Insert(ConstIterator pos, const Type& value)` with `dist = pos - cbegin()`
and `value` an object outside the sequence; returns the sequence and the offset
of the returned iterator. -/
def Insert [Inhabited T] (raw : Nat → T) (S : SimpleVector T) (dist : Nat) (value : T) :
    SimpleVector T × Nat :=
  let new_size := (S.size_ + 1) % SIZE_MOD
  let S1 := Resize raw S new_size
  -- start = begin() + dist; std::copy(start, end() - 1, start + 1)
  let S2 := { S1 with
    array_ := S1.array_.onBlock (copy_within (S1.size_ - 1 - dist) dist (dist + 1)) }
  ({ S2 with array_ := S2.array_.write dist value }, dist)

/-- `Insert(ConstIterator pos, Type&& value)`. -/
def Insert_move [Inhabited T] (raw : Nat → T) (mv : T → T) (S : SimpleVector T)
    (dist : Nat) (value : T) : SimpleVector T × Nat :=
  let new_size := (S.size_ + 1) % SIZE_MOD
  let S1 := Resize raw S new_size
  -- start = begin() + dist; std::move(start, end() - 1, start + 1)
  let S2 := { S1 with
    array_ := S1.array_.onBlock (move_within mv (S1.size_ - 1 - dist) dist (dist + 1)) }
  ({ S2 with array_ := S2.array_.write dist value }, dist)

/-- `PopBack()`. -/
def PopBack (S : SimpleVector T) : SimpleVector T :=
  { S with size_ := size_pred S.size_ }

/-- `Erase(ConstIterator pos)` with `dist = pos - cbegin()`; returns the sequence
and the offset of the returned iterator. -/
def Erase (mv : T → T) (S : SimpleVector T) (dist : Nat) : SimpleVector T × Nat :=
  if dist = S.size_ then
    (S, S.size_)
  else
    -- std::move(begin() + dist + 1, end(), begin() + dist)
    let S1 := { S with
      array_ := S.array_.onBlock (move_within mv (S.size_ - (dist + 1)) (dist + 1) dist) }
    ({ S1 with size_ := size_pred S1.size_ }, dist)

/-- `SimpleVector(SimpleVector&& other)`: the new sequence and `other` afterwards. -/
def move_ctor (other : SimpleVector T) : SimpleVector T × SimpleVector T :=
  let (arr, other_arr) := ArrayPtr.move_ctor other.array_
  -- size_ and capacity_ start from their default member initialisers
  let this : SimpleVector T := { array_ := arr, size_ := 0, capacity_ := 0 }
  -- other.size_ = std::exchange(size_, other.size_), the same for capacity_
  ({ array_ := this.array_, size_ := other.size_, capacity_ := other.capacity_ },
   { array_ := other_arr, size_ := this.size_, capacity_ := this.capacity_ })

/-- `operator=(SimpleVector&& rhs)` for `this != &rhs`: `*this` and `rhs` afterwards. -/
def move_assign (this rhs : SimpleVector T) : SimpleVector T × SimpleVector T :=
  let (arr, rhs_arr) := this.array_.swap rhs.array_
  ({ array_ := arr, size_ := rhs.size_, capacity_ := rhs.capacity_ },
   { array_ := rhs_arr, size_ := this.size_, capacity_ := this.capacity_ })

/-- `SimpleVector(const SimpleVector& other)`: the new sequence and `other`. -/
def copy_ctor (raw : Nat → T) (other : SimpleVector T) : SimpleVector T × SimpleVector T :=
  let array_tmp : ArrayPtr T := ArrayPtr.alloc raw other.GetSize
  let array_tmp := array_tmp.onBlock (copy_into other.size_ 0 other.array_.cells 0)
  ({ array_ := (ArrayPtr.null : ArrayPtr T).SetPtr array_tmp.Release.1
     size_ := other.GetSize
     capacity_ := other.GetSize }, other)

/-- `operator=(const SimpleVector& rhs)` for `this != &rhs`: `*this` and `rhs`
afterwards. -/
def copy_assign (raw : Nat → T) (this rhs : SimpleVector T) :
    SimpleVector T × SimpleVector T :=
  let new_size := rhs.GetSize
  let array_tmp : ArrayPtr T := ArrayPtr.alloc raw new_size
  let array_tmp := array_tmp.onBlock (copy_into rhs.size_ 0 rhs.array_.cells 0)
  ({ array_ := (this.array_.swap array_tmp).1, size_ := new_size, capacity_ := new_size },
   rhs)

/-- `SimpleVector(std::initializer_list<Type> init)`. -/
def of_init (raw : Nat → T) (init : List T) : SimpleVector T :=
  { array_ := (ArrayPtr.alloc raw init.length).onBlock (copy_into init.length 0 init 0)
    size_ := init.length
    capacity_ := init.length }

/-- `operator==`. -/
def eq [DecidableEq T] (lhs rhs : SimpleVector T) : Bool :=
  std_equal lhs.content rhs.content

/-- `operator!=`. -/
def ne [DecidableEq T] (lhs rhs : SimpleVector T) : Bool := !(eq lhs rhs)

/-- `explicit SimpleVector(size_t size)`. -/
def of_size [Inhabited T] (raw : Nat → T) (size : Nat) : SimpleVector T :=
  { array_ := (ArrayPtr.alloc raw size).onBlock (fill_range size 0 default)
    size_ := size
    capacity_ := size }

/-- `SimpleVector(size_t size, const Type& value)`. -/
def of_size_value (raw : Nat → T) (size : Nat) (value : T) : SimpleVector T :=
  -- fill(begin(), end(), value)
  { array_ := (ArrayPtr.alloc raw size).onBlock (fill_range size 0 value)
    size_ := size
    capacity_ := size }

/-- `SimpleVector(size_t size, Type&& value)`. -/
def of_size_value_move (raw : Nat → T) (mv : T → T) (size : Nat) (value : T) :
    SimpleVector T :=
  { array_ := (ArrayPtr.alloc raw size).onBlock (move_fill mv size 0 value)
    size_ := size
    capacity_ := size }

/-- `swap(SimpleVector& other)`, and the rvalue overload: `*this` and `other`
afterwards. -/
def swap (this other : SimpleVector T) : SimpleVector T × SimpleVector T :=
  let (tmp_ptr, arr) := this.array_.Release
  let (other_ptr, other_arr) := other.array_.Release
  let arr := arr.SetPtr other_ptr
  let other_arr := other_arr.SetPtr tmp_ptr
  ({ array_ := arr, size_ := other.size_, capacity_ := other.capacity_ },
   { array_ := other_arr, size_ := this.size_, capacity_ := this.capacity_ })

/-- The member `Reserve(new_capacity)`. -/
def Reserve [Inhabited T] (raw : Nat → T) (S : SimpleVector T) (new_capacity : Nat) :
    SimpleVector T :=
  if S.capacity_ < new_capacity then
    let new_vector : SimpleVector T := of_size raw new_capacity
    -- std::copy(begin(), end(), new_vector.begin())
    let new_vector := { new_vector with
      array_ := new_vector.array_.onBlock (copy_into S.size_ 0 S.array_.cells 0) }
    let (this, new_vector) := swap S new_vector
    -- std::swap(size_, new_vector.size_); new_vector is then destroyed
    { this with size_ := new_vector.size_ }
  else S

/-- `SimpleVector(ReserveProxyObj object_init)`. -/
def of_reserve [Inhabited T] (raw : Nat → T) (object_init : ReserveProxyObj) :
    SimpleVector T :=
  Reserve raw (empty : SimpleVector T) object_init.GetCapacity

/-- `operator<`. -/
def lt [LT T] [DecidableRel (fun a b : T => a < b)] (lhs rhs : SimpleVector T) : Bool :=
  lexicographical_compare lhs.content rhs.content

/-- `operator<=`. -/
def le [DecidableEq T] [LT T] [DecidableRel (fun a b : T => a < b)]
    (lhs rhs : SimpleVector T) : Bool :=
  eq lhs rhs || lt lhs rhs

/-- `operator>`. -/
def gt [DecidableEq T] [LT T] [DecidableRel (fun a b : T => a < b)]
    (lhs rhs : SimpleVector T) : Bool :=
  !(eq lhs rhs || lt lhs rhs)

/-- `operator>=`. -/
def ge [LT T] [DecidableRel (fun a b : T => a < b)] (lhs rhs : SimpleVector T) : Bool :=
  !(lt lhs rhs)

/-- Successive single `PushBack` calls, one for each element of `items`. -/
def push_all [Inhabited T] (raw : Nat → T) (mv : T → T) (S : SimpleVector T)
    (items : List (Arg T)) : SimpleVector T :=
  items.foldl (PushBack raw mv) S

/-- Invariant A of the sequence: `GetSize() <= GetCapacity()`. -/
def InvariantA (S : SimpleVector T) : Prop := S.GetSize ≤ S.GetCapacity

/-- The doubling invariant: an empty sequence without a block, or a capacity that
is a power of two with `size <= capacity < 2 * size`. -/
def Doubled (S : SimpleVector T) : Prop :=
  (S.size_ = 0 ∧ S.capacity_ = 0) ∨
  ∃ e : Nat, S.capacity_ = 2 ^ e ∧ S.size_ ≤ S.capacity_ ∧ S.capacity_ < 2 * S.size_

/-- The class invariant: the block has `capacity_` cells (none when the handle is
null), `size_ ≤ capacity_`, and `capacity_` is a `size_t` value. -/
def Valid (S : SimpleVector T) : Prop :=
  S.array_.cells.length = S.capacity_ ∧ S.size_ ≤ S.capacity_ ∧ S.capacity_ < SIZE_MOD

end SimpleVector

/-! ## Concrete inputs -/

/-- Contents of freshly allocated `int` storage in the examples. -/
def junk : Nat → Nat := fun i => 1000 + i

/-- Contents of freshly allocated `std::string` storage: default-constructed. -/
def fresh_str : Nat → String := fun _ => ""

/-- A moved-from `int` keeps its value. -/
def moved_int : Nat → Nat := fun x => x

/-- A moved-from `std::string` is empty. -/
def moved_str : String → String := fun _ => ""

/-- `SimpleVector<int>{1, 2, 3}`. -/
def v123 : SimpleVector Nat := SimpleVector.of_init junk [1, 2, 3]

/-- `SimpleVector<int>{1, 2, 3}` after `PopBack()`: size 2, capacity 3, a stale
`3` behind the end. -/
def v12_cap3 : SimpleVector Nat := SimpleVector.PopBack v123

/-- `SimpleVector<int>{7}`. -/
def v7 : SimpleVector Nat := SimpleVector.of_init junk [7]

/-- `SimpleVector<int>{1, 2, 4}`. -/
def v124 : SimpleVector Nat := SimpleVector.of_init junk [1, 2, 4]

/-- `SimpleVector<int>{1, 2}`. -/
def v12 : SimpleVector Nat := SimpleVector.of_init junk [1, 2]

/-- `SimpleVector<std::string>{"a", "b"}`: size 2, capacity 2. -/
def sab : SimpleVector String := SimpleVector.of_init fresh_str ["a", "b"]

/-- `SimpleVector<std::string>{"2", "3"}`. -/
def s23 : SimpleVector String := SimpleVector.of_init fresh_str ["2", "3"]


/-! ## The loops, cell by cell -/

theorem length_fill_range (n d : Nat) (v : T) (buf : List T) :
    (fill_range n d v buf).length = buf.length := by
  induction n generalizing d buf with
  | zero => rfl
  | succ n ih => simp [fill_range, ih]

theorem getElem?_fill_range (n d : Nat) (v : T) (buf : List T) (i : Nat) :
    (fill_range n d v buf)[i]? =
      if d ≤ i ∧ i < d + n ∧ i < buf.length then some v else buf[i]? := by
  induction n generalizing d buf with
  | zero =>
    have : ¬ (d ≤ i ∧ i < d + 0 ∧ i < buf.length) := by omega
    rw [if_neg this]; rfl
  | succ n ih =>
    simp only [fill_range, ih, List.length_set, List.getElem?_set]
    by_cases h1 : d = i
    · subst h1
      by_cases h2 : d < buf.length
      · have a1 : ¬ (d + 1 ≤ d ∧ d < d + 1 + n ∧ d < buf.length) := by omega
        have a2 : d ≤ d ∧ d < d + (n + 1) ∧ d < buf.length := by omega
        simp [a1, a2, h2]
      · have a1 : ¬ (d + 1 ≤ d ∧ d < d + 1 + n ∧ d < buf.length) := by omega
        have a2 : ¬ (d ≤ d ∧ d < d + (n + 1) ∧ d < buf.length) := by omega
        simp [a1, a2, h2, List.getElem?_eq_none (Nat.le_of_not_lt h2)]
    · by_cases h3 : d + 1 ≤ i ∧ i < d + 1 + n ∧ i < buf.length
      · have a2 : d ≤ i ∧ i < d + (n + 1) ∧ i < buf.length := by omega
        simp [h3, a2]
      · have a2 : ¬ (d ≤ i ∧ i < d + (n + 1) ∧ i < buf.length) := by omega
        simp [h3, a2, h1]

theorem length_copy_into (n f : Nat) (src : List T) (d : Nat) (dst : List T) :
    (copy_into n f src d dst).length = dst.length := by
  induction n generalizing f d dst with
  | zero => rfl
  | succ n ih =>
    simp only [copy_into]
    split
    · simp [ih]
    · rfl

theorem getElem?_copy_into (n f : Nat) (src : List T) (d : Nat) (dst : List T) (i : Nat)
    (hsrc : f + n ≤ src.length) :
    (copy_into n f src d dst)[i]? =
      if d ≤ i ∧ i < d + n ∧ i < dst.length then src[f + (i - d)]? else dst[i]? := by
  induction n generalizing f d dst with
  | zero =>
    have : ¬ (d ≤ i ∧ i < d + 0 ∧ i < dst.length) := by omega
    rw [if_neg this]; rfl
  | succ n ih =>
    have hf : f < src.length := by omega
    simp only [copy_into, List.getElem?_eq_getElem hf]
    rw [ih (f + 1) (d + 1) _ (by omega)]
    simp only [List.length_set, List.getElem?_set]
    by_cases h1 : d = i
    · subst h1
      have a1 : ¬ (d + 1 ≤ d ∧ d < d + 1 + n ∧ d < dst.length) := by omega
      by_cases h2 : d < dst.length
      · have a2 : d ≤ d ∧ d < d + (n + 1) ∧ d < dst.length := by omega
        simp [a1, a2, h2, List.getElem?_eq_getElem hf]
      · have a2 : ¬ (d ≤ d ∧ d < d + (n + 1) ∧ d < dst.length) := by omega
        simp [a1, a2, h2, List.getElem?_eq_none (Nat.le_of_not_lt h2)]
    · by_cases h3 : d + 1 ≤ i ∧ i < d + 1 + n ∧ i < dst.length
      · have a2 : d ≤ i ∧ i < d + (n + 1) ∧ i < dst.length := by omega
        have e : f + 1 + (i - (d + 1)) = f + (i - d) := by omega
        simp [h3, a2, e]
      · have a2 : ¬ (d ≤ i ∧ i < d + (n + 1) ∧ i < dst.length) := by omega
        simp [h3, a2, h1]

theorem length_move_within (mv : T → T) (n f d : Nat) (buf : List T) :
    (move_within mv n f d buf).length = buf.length := by
  induction n generalizing f d buf with
  | zero => rfl
  | succ n ih =>
    simp only [move_within]
    split
    · simp [ih]
    · rfl

/-- A left shift by one (`d_first = first - 1`): below `d + n` every cell ends up
holding what its right neighbour held. -/
theorem getElem?_move_within_left (mv : T → T) (n d : Nat) (buf : List T) (i : Nat)
    (hlen : d + 1 + n ≤ buf.length) (hi : i < d + n) :
    (move_within mv n (d + 1) d buf)[i]? = if i < d then buf[i]? else buf[i + 1]? := by
  induction n generalizing d buf with
  | zero =>
    have : i < d := by omega
    simp [move_within, this]
  | succ n ih =>
    have hf : d + 1 < buf.length := by omega
    simp only [move_within, List.getElem?_eq_getElem hf]
    by_cases h1 : i < d
    · rw [ih (d + 1) _ (by simpa using by omega) (by omega)]
      have a1 : i < d + 1 := by omega
      have a2 : d ≠ i := by omega
      have a3 : d + 1 ≠ i := by omega
      simp [a1, h1, List.getElem?_set, a2, a3]
    · by_cases h2 : i = d
      · subst h2
        rw [ih (i + 1) _ (by simpa using by omega) (by omega)]
        have a3 : i < buf.length := by omega
        simp [List.getElem?_set, a3, List.getElem?_eq_getElem hf]
      · rw [ih (d + 1) _ (by simpa using by omega) (by omega)]
        have a1 : ¬ i < d + 1 := by omega
        have a2 : d ≠ i + 1 := by omega
        have a3 : d + 1 ≠ i + 1 := by omega
        simp [a1, h1, List.getElem?_set, a2, a3]


/-! ## Blocks and handles -/

theorem cells_onBlock (a : ArrayPtr T) (g : List T → List T) (hg : g [] = []) :
    (a.onBlock g).cells = g a.cells := by
  cases a with
  | mk p => cases p <;> simp [ArrayPtr.onBlock, ArrayPtr.cells, hg]

theorem fill_range_nil (n d : Nat) (v : T) : fill_range n d v ([] : List T) = [] :=
  List.eq_nil_of_length_eq_zero (by simp [length_fill_range])

theorem copy_into_nil (n f : Nat) (src : List T) (d : Nat) :
    copy_into n f src d ([] : List T) = [] :=
  List.eq_nil_of_length_eq_zero (by simp [length_copy_into])

theorem move_within_nil (mv : T → T) (n f d : Nat) :
    move_within mv n f d ([] : List T) = [] :=
  List.eq_nil_of_length_eq_zero (by simp [length_move_within])

theorem cells_alloc (raw : Nat → T) (n : Nat) :
    (ArrayPtr.alloc raw n).cells = (List.range n).map raw := by
  unfold ArrayPtr.alloc
  split
  · rfl
  · have : n = 0 := by omega
    subst this
    rfl

theorem cells_write (a : ArrayPtr T) (i : Nat) (v : T) :
    (a.write i v).cells = a.cells.set i v :=
  cells_onBlock a _ rfl

theorem index_eq [Inhabited T] (a : ArrayPtr T) (i : Nat) :
    a.index i = a.cells[i]?.getD default := by
  simp [ArrayPtr.index, List.getD_eq_getElem?_getD]

/-- A fresh block that received the first `m` cells of `src` and then `k`
default values holds exactly those. -/
theorem fresh_block [Inhabited T] (raw : Nat → T) (src : List T) (m k : Nat)
    (hm : m ≤ src.length) :
    fill_range k m default (copy_into m 0 src 0 ((List.range (m + k)).map raw)) =
      src.take m ++ List.replicate k default := by
  apply List.ext_getElem?
  intro i
  rw [getElem?_fill_range, length_copy_into, getElem?_copy_into _ _ _ _ _ _ (by omega)]
  simp only [List.length_map, List.length_range, Nat.zero_add, Nat.sub_zero, Nat.zero_le,
    true_and]
  by_cases h1 : i < m
  · have a1 : ¬ (m ≤ i ∧ i < m + k ∧ i < m + k) := by omega
    have a2 : i < m ∧ i < m + k := by omega
    rw [if_neg a1, if_pos a2, List.getElem?_append_left (by simp; omega),
      List.getElem?_take_of_lt h1]
  · rw [List.getElem?_append_right (by simp; omega)]
    simp only [List.length_take, Nat.min_eq_left hm, List.getElem?_replicate]
    by_cases h2 : i < m + k
    · have a1 : m ≤ i ∧ i < m + k ∧ i < m + k := by omega
      have a3 : i - m < k := by omega
      rw [if_pos a1, if_pos a3]
    · have a1 : ¬ (m ≤ i ∧ i < m + k ∧ i < m + k) := by omega
      have a2 : ¬ (i < m ∧ i < m + k) := by omega
      have a3 : ¬ i - m < k := by omega
      rw [if_neg a1, if_neg a2, if_neg a3]
      exact List.getElem?_eq_none (by simp; omega)

/-- Refilling the tail `[m, len)` of a block with default values. -/
theorem refill_block [Inhabited T] (buf : List T) (m : Nat) (hm : m ≤ buf.length) :
    fill_range (buf.length - m) m default buf =
      buf.take m ++ List.replicate (buf.length - m) default := by
  apply List.ext_getElem?
  intro i
  rw [getElem?_fill_range]
  by_cases h1 : i < m
  · have a1 : ¬ (m ≤ i ∧ i < m + (buf.length - m) ∧ i < buf.length) := by omega
    rw [if_neg a1, List.getElem?_append_left (by simp; omega), List.getElem?_take_of_lt h1]
  · rw [List.getElem?_append_right (by simp; omega)]
    simp only [List.length_take, Nat.min_eq_left hm, List.getElem?_replicate]
    by_cases h2 : i < buf.length
    · have a1 : m ≤ i ∧ i < m + (buf.length - m) ∧ i < buf.length := by omega
      have a3 : i - m < buf.length - m := by omega
      rw [if_pos a1, if_pos a3]
    · have a1 : ¬ (m ≤ i ∧ i < m + (buf.length - m) ∧ i < buf.length) := by omega
      have a3 : ¬ i - m < buf.length - m := by omega
      rw [if_neg a1, if_neg a3]
      exact List.getElem?_eq_none (by omega)

/-! ## `Resize` -/

namespace SimpleVector

theorem Resize_shrink [Inhabited T] (raw : Nat → T) (S : SimpleVector T) (n : Nat)
    (hn : n ≤ S.size_) : Resize raw S n = { S with size_ := n } := by
  unfold Resize
  by_cases h0 : n = 0
  · simp [h0, Clear]
  · simp [h0, hn]

/-- Growing inside the allocated block (third branch of `Resize`). -/
theorem Resize_refill [Inhabited T] (raw : Nat → T) (S : SimpleVector T) (n : Nat)
    (hv : S.Valid) (hm : S.size_ < n) (hn : n ≤ S.capacity_) :
    Resize raw S n =
      { array_ := S.array_.onBlock (fill_range (S.capacity_ - S.size_) S.size_ default)
        size_ := n
        capacity_ := S.capacity_ } ∧
    (Resize raw S n).array_.cells =
      S.content ++ List.replicate (S.capacity_ - S.size_) default := by
  have h0 : n ≠ 0 := by omega
  have h1 : ¬ n ≤ S.size_ := by omega
  have e : Resize raw S n =
      { array_ := S.array_.onBlock (fill_range (S.capacity_ - S.size_) S.size_ default)
        size_ := n
        capacity_ := S.capacity_ } := by
    unfold Resize
    simp [h0, h1, hn]
  refine ⟨e, ?_⟩
  rw [e]
  simp only
  rw [cells_onBlock _ _ (fill_range_nil _ _ _)]
  obtain ⟨hl, hs, _⟩ := hv
  rw [← hl]
  exact refill_block _ _ (by omega)

/-- Growing past the allocated block (fourth branch of `Resize`). -/
theorem Resize_realloc [Inhabited T] (raw : Nat → T) (S : SimpleVector T) (n : Nat)
    (hv : S.Valid) (hn : S.capacity_ < n) :
    (Resize raw S n).size_ = n ∧
    (Resize raw S n).capacity_ = max n (S.capacity_ * 2 % SIZE_MOD) ∧
    (Resize raw S n).array_.cells =
      S.content ++ List.replicate (max n (S.capacity_ * 2 % SIZE_MOD) - S.size_) default := by
  obtain ⟨hl, hs, _⟩ := hv
  have h0 : n ≠ 0 := by omega
  have h1 : ¬ n ≤ S.size_ := by omega
  have h2 : ¬ n ≤ S.capacity_ := by omega
  have e : Resize raw S n =
      { array_ := S.array_.SetPtr
          (((ArrayPtr.alloc raw (max n (S.capacity_ * 2 % SIZE_MOD))).onBlock
              (copy_into S.size_ 0 S.array_.cells 0)).onBlock
            (fill_range (max n (S.capacity_ * 2 % SIZE_MOD) - S.size_) S.size_
              default)).Release.1
        size_ := n
        capacity_ := max n (S.capacity_ * 2 % SIZE_MOD) } := by
    unfold Resize
    simp [h0, h1, h2, hn]
  rw [e]
  refine ⟨rfl, rfl, ?_⟩
  have hc : ∀ a : ArrayPtr T, (S.array_.SetPtr a.Release.1).cells = a.cells := fun a => rfl
  simp only
  rw [hc, cells_onBlock _ _ (fill_range_nil _ _ _), cells_onBlock _ _ (copy_into_nil _ _ _ _),
    cells_alloc]
  have hk : max n (S.capacity_ * 2 % SIZE_MOD) =
      S.size_ + (max n (S.capacity_ * 2 % SIZE_MOD) - S.size_) := by
    have := Nat.le_max_left n (S.capacity_ * 2 % SIZE_MOD)
    omega
  conv_lhs => rw [hk]
  rw [Nat.add_sub_cancel_left]
  exact fresh_block raw _ _ _ (by omega)

end SimpleVector


namespace SimpleVector

theorem length_content (S : SimpleVector T) (hv : S.Valid) : S.content.length = S.size_ := by
  obtain ⟨hl, hs, _⟩ := hv
  simp [content, hl, hs]

/-- Both growing branches of `Resize` leave the old content followed by default
values up to the capacity. -/
theorem Resize_grow [Inhabited T] (raw : Nat → T) (S : SimpleVector T) (n : Nat)
    (hv : S.Valid) (hm : S.size_ < n) :
    (Resize raw S n).size_ = n ∧ n ≤ (Resize raw S n).capacity_ ∧
    (Resize raw S n).array_.cells =
      S.content ++ List.replicate ((Resize raw S n).capacity_ - S.size_) default := by
  by_cases hn : n ≤ S.capacity_
  · obtain ⟨e, hc⟩ := Resize_refill raw S n hv hm hn
    rw [hc, e]
    exact ⟨rfl, hn, rfl⟩
  · obtain ⟨h1, h2, h3⟩ := Resize_realloc raw S n hv (by omega)
    rw [h1, h2, h3]
    exact ⟨rfl, Nat.le_max_left _ _, rfl⟩

/-- Reading a cell of a block that holds the content of `S` followed by `k`
default values. -/
theorem index_content_append [Inhabited T] (S : SimpleVector T) (a : ArrayPtr T) (k : Nat)
    (hv : S.Valid) (ha : a.cells = S.content ++ List.replicate k default) (i : Nat) :
    a.index i = if i < S.size_ then S.index i else default := by
  have hlen := length_content S hv
  rw [index_eq, ha]
  by_cases h : i < S.size_
  · rw [if_pos h, List.getElem?_append_left (by omega), index, index_eq, content,
      List.getElem?_take_of_lt h]
  · rw [if_neg h, List.getElem?_append_right (by omega), List.getElem?_replicate]
    split <;> rfl

theorem size_pred_succ (n : Nat) : size_pred (n + 1) = n := by
  simp [size_pred]

theorem PushBack_eq [Inhabited T] (raw : Nat → T) (mv : T → T) (S : SimpleVector T)
    (item : Arg T) (hv : S.Valid) (hfit : S.size_ + 1 < SIZE_MOD) :
    PushBack raw mv S item =
      { Resize raw S (S.size_ + 1) with
        array_ := (Resize raw S (S.size_ + 1)).array_.write S.size_
          (pushed_value raw mv S item) } := by
  have h1 := (Resize_grow raw S (S.size_ + 1) hv (by omega)).1
  simp only [PushBack, Nat.mod_eq_of_lt hfit, h1, size_pred_succ]

/-- The block after `PushBack`: old content, the value read through `item`,
default values. -/
theorem PushBack_cells [Inhabited T] (raw : Nat → T) (mv : T → T) (S : SimpleVector T)
    (item : Arg T) (hv : S.Valid) (hfit : S.size_ + 1 < SIZE_MOD) :
    (PushBack raw mv S item).size_ = S.size_ + 1 ∧
    S.size_ + 1 ≤ (PushBack raw mv S item).capacity_ ∧
    (PushBack raw mv S item).array_.cells =
      S.content ++ pushed_value raw mv S item ::
        List.replicate ((PushBack raw mv S item).capacity_ - (S.size_ + 1)) default := by
  obtain ⟨h1, h2, h3⟩ := Resize_grow raw S (S.size_ + 1) hv (by omega)
  have hlen := length_content S hv
  rw [PushBack_eq raw mv S item hv hfit]
  refine ⟨h1, h2, ?_⟩
  simp only
  rw [cells_write, h3]
  generalize (Resize raw S (S.size_ + 1)).capacity_ = c at h2 ⊢
  have hc : c - S.size_ = (c - (S.size_ + 1)) + 1 := by omega
  rw [hc, List.replicate_succ, ← hlen, List.set_append_right _ _ (Nat.le_refl _)]
  simp

theorem PushBack_content [Inhabited T] (raw : Nat → T) (mv : T → T) (S : SimpleVector T)
    (item : Arg T) (hv : S.Valid) (hfit : S.size_ + 1 < SIZE_MOD) :
    (PushBack raw mv S item).content = S.content ++ [pushed_value raw mv S item] := by
  obtain ⟨h1, _, h3⟩ := PushBack_cells raw mv S item hv hfit
  have hlen := length_content S hv
  rw [content, h3, h1, ← hlen, List.take_append_eq_append_take]
  simp

theorem pushed_value_outside [Inhabited T] (raw : Nat → T) (mv : T → T)
    (S : SimpleVector T) (x : T) : pushed_value raw mv S (.outside x) = x := rfl

/-- With an item outside the sequence, `PushBack` is `Resize(n + 1)` followed by
the assignment of the item to index `n`: the content grows by the item at its
end, whether or not the block is reallocated. -/
theorem PushBack_outside [Inhabited T] (raw : Nat → T) (mv : T → T) (S : SimpleVector T)
    (x : T) (hv : S.Valid) (hfit : S.size_ + 1 < SIZE_MOD) :
    PushBack raw mv S (.outside x) =
      { Resize raw S (S.size_ + 1) with
        array_ := (Resize raw S (S.size_ + 1)).array_.write S.size_ x } ∧
    PushBack_move raw mv S (.outside x) = PushBack raw mv S (.outside x) ∧
    (PushBack raw mv S (.outside x)).size_ = S.size_ + 1 ∧
    (PushBack raw mv S (.outside x)).content = S.content ++ [x] :=
  ⟨PushBack_eq raw mv S (.outside x) hv hfit, rfl,
    (PushBack_cells raw mv S (.outside x) hv hfit).1,
    PushBack_content raw mv S (.outside x) hv hfit⟩

end SimpleVector


namespace SimpleVector

theorem std_equal_self [DecidableEq T] (l : List T) : std_equal l l = true := by
  induction l with
  | nil => rfl
  | cons a l ih => simp [std_equal, ih]

theorem size_pred_pos (n : Nat) (h0 : 0 < n) : size_pred n = n - 1 := by
  have : n ≠ 0 := by omega
  simp [size_pred, this]

/-- The block written by the copy constructor and by copy assignment. -/
theorem copy_block (raw : Nat → T) (src : List T) (m : Nat) (hm : m ≤ src.length) :
    copy_into m 0 src 0 ((List.range m).map raw) = src.take m := by
  apply List.ext_getElem?
  intro i
  rw [getElem?_copy_into _ _ _ _ _ _ (by omega)]
  simp only [List.length_map, List.length_range, Nat.zero_add, Nat.sub_zero, Nat.zero_le,
    true_and, List.getElem?_take]
  by_cases h : i < m
  · have a : i < m ∧ i < m := ⟨h, h⟩
    rw [if_pos a, if_pos h]
  · have a : ¬ (i < m ∧ i < m) := fun c => h c.1
    rw [if_neg a, if_neg h]
    exact List.getElem?_eq_none (by simp; omega)

end SimpleVector

open SimpleVector

/-- C2. For a sequence with content `[s0..s(n-1)]` and an offset `k < n`,
`Erase(begin()+k)` leaves size `n-1`, the same capacity and the content with its
`k`-th element removed, and returns offset `k`, which is `end()` when `k` was the
last index.  The residue `mv` of the moved-from cells plays no part. -/
theorem Erase_removes_element (mv : T → T) (S : SimpleVector T) (k : Nat)
    (hv : S.Valid) (hk : k < S.GetSize) :
    (Erase mv S k).1.GetSize = S.GetSize - 1 ∧
    (Erase mv S k).1.GetCapacity = S.GetCapacity ∧
    (Erase mv S k).1.content = S.content.eraseIdx k ∧
    (Erase mv S k).2 = k ∧
    (k + 1 = S.GetSize → (Erase mv S k).2 = (Erase mv S k).1.GetSize) := by
  obtain ⟨hl, hs, hc⟩ := hv
  simp only [GetSize, GetCapacity] at *
  have hne : k ≠ S.size_ := by omega
  have hsz : size_pred S.size_ = S.size_ - 1 := size_pred_pos _ (by omega)
  simp only [Erase, if_neg hne, hsz]
  refine ⟨trivial, trivial, ?_, trivial, fun h => by omega⟩
  simp only [content]
  rw [cells_onBlock _ _ (move_within_nil _ _ _ _)]
  apply List.ext_getElem?
  intro i
  rw [List.getElem?_take, List.getElem?_eraseIdx, List.getElem?_take, List.getElem?_take]
  by_cases h1 : i < S.size_ - 1
  · rw [if_pos h1, getElem?_move_within_left mv _ k _ i (by omega) (by omega)]
    have a1 : i < S.size_ := by omega
    have a2 : i + 1 < S.size_ := by omega
    rw [if_pos a1, if_pos a2]
  · have a1 : ¬ i < k := by omega
    have a2 : ¬ i + 1 < S.size_ := by omega
    rw [if_neg h1, if_neg a1, if_neg a2]

/-- Witness of C2: `erase(begin())` on `{1,2,3}` gives `{2,3}`. -/
theorem Erase_removes_element_witness :
    (Erase moved_int v123 0).1.content = [2, 3] ∧ (Erase moved_int v123 0).2 = 0 :=
  have h := Erase_removes_element moved_int v123 0
    (by unfold SimpleVector.Valid; decide) (by decide)
  ⟨h.2.2.1, h.2.2.2.1⟩



/-- C1. `Insert(begin(), "x")` on `SimpleVector<std::string>{"2", "3"}`: the tail
is shifted by a front-to-back `std::copy` / `std::move` whose destination lies
inside the source range, so `"3"` is overwritten before it is read.  The copy
overload leaves `{"x", "2", "2"}` and the move overload `{"x", "", "2"}`; neither
is `{"x", "2", "3"}`. -/
theorem Insert_front_overwrites_tail :
    (Insert fresh_str s23 0 "x").1.content = ["x", "2", "2"] ∧
    (Insert_move fresh_str moved_str s23 0 "x").1.content = ["x", "", "2"] ∧
    (Insert fresh_str s23 0 "x").1.content ≠ ["x", "2", "3"] ∧
    (Insert_move fresh_str moved_str s23 0 "x").1.content ≠ ["x", "2", "3"] := by
  decide

/-- C3, as stated, fails: after `D = std::move(S)` with `D = {7}` and
`S = {1, 2, 3}` the source holds what `D` held, with size 1, capacity 1 and a
non-null buffer. -/
theorem move_assign_source_not_empty :
    (move_assign v7 v123).2.GetSize = 1 ∧
    (move_assign v7 v123).2.GetCapacity = 1 ∧
    (move_assign v7 v123).2.array_.raw_ptr_ = some [7] ∧
    ¬ ((move_assign v7 v123).2.GetSize = 0 ∧ (move_assign v7 v123).2.GetCapacity = 0 ∧
        (move_assign v7 v123).2.array_.raw_ptr_ = none) := by
  decide

/-- C3, amended. After the move assignment `D = std::move(S)` of two distinct
sequences, `D` has the size, capacity and content `S` had, and `S` has the size,
capacity and buffer `D` had: the two are exchanged, so `S` is left empty (size 0,
capacity 0, null buffer) when `D` was empty. -/
theorem move_assign_exchanges (D S : SimpleVector T) :
    (move_assign D S).1.GetSize = S.GetSize ∧
    (move_assign D S).1.GetCapacity = S.GetCapacity ∧
    (move_assign D S).1.content = S.content ∧
    (move_assign D S).2 = D ∧
    ((move_assign (empty : SimpleVector T) S).2.GetSize = 0 ∧
      (move_assign (empty : SimpleVector T) S).2.GetCapacity = 0 ∧
      (move_assign (empty : SimpleVector T) S).2.array_.raw_ptr_ = none) :=
  ⟨rfl, rfl, rfl, rfl, rfl, rfl, rfl⟩

/-- C4. Move construction of `M` from `S` leaves `S` with size 0, capacity 0 and a
null buffer, and `M` has the size, capacity and content `S` had. -/
theorem move_ctor_transfers (S : SimpleVector T) :
    (move_ctor S).2.GetSize = 0 ∧
    (move_ctor S).2.GetCapacity = 0 ∧
    (move_ctor S).2.array_.raw_ptr_ = none ∧
    (move_ctor S).1.GetSize = S.GetSize ∧
    (move_ctor S).1.GetCapacity = S.GetCapacity ∧
    (move_ctor S).1.content = S.content :=
  ⟨rfl, rfl, rfl, rfl, rfl, rfl⟩

/-- C5. A copy `C` of `S`, made by the copy constructor or by copy assignment into
another sequence `D`, compares `==` to `S`, has the content and size of `S` and
capacity `S.GetSize()`, and `S` is unchanged. -/
theorem copy_is_equal_and_tight [DecidableEq T] (raw : Nat → T) (D S : SimpleVector T)
    (hv : S.Valid) :
    (eq (copy_ctor raw S).1 S = true ∧
      (copy_ctor raw S).1.content = S.content ∧
      (copy_ctor raw S).1.GetSize = S.GetSize ∧
      (copy_ctor raw S).1.GetCapacity = S.GetSize ∧
      (copy_ctor raw S).2 = S) ∧
    (eq (copy_assign raw D S).1 S = true ∧
      (copy_assign raw D S).1.content = S.content ∧
      (copy_assign raw D S).1.GetSize = S.GetSize ∧
      (copy_assign raw D S).1.GetCapacity = S.GetSize ∧
      (copy_assign raw D S).2 = S) := by
  obtain ⟨hl, hs, _⟩ := hv
  have hblock : ((ArrayPtr.alloc raw S.size_).onBlock
      (copy_into S.size_ 0 S.array_.cells 0)).cells = S.content := by
    rw [cells_onBlock _ _ (copy_into_nil _ _ _ _), cells_alloc]
    exact copy_block raw _ _ (by omega)
  have hlen : S.content.length = S.size_ := by simp [content, hl, hs]
  have h1 : (copy_ctor raw S).1.content = S.content := by
    have e : (copy_ctor raw S).1.array_.cells = S.content := hblock
    have e2 : (copy_ctor raw S).1.size_ = S.size_ := rfl
    rw [content, e, e2, ← hlen, List.take_length]
  have h2 : (copy_assign raw D S).1.content = S.content := by
    have e : (copy_assign raw D S).1.array_.cells = S.content := hblock
    have e2 : (copy_assign raw D S).1.size_ = S.size_ := rfl
    rw [content, e, e2, ← hlen, List.take_length]
  refine ⟨⟨?_, h1, rfl, rfl, rfl⟩, ⟨?_, h2, rfl, rfl, rfl⟩⟩
  · rw [eq, h1]; exact std_equal_self _
  · rw [eq, h2]; exact std_equal_self _

/-- Witness of C5, on a sequence of size 2 and capacity 3, copied into `{7}`. -/
theorem copy_is_equal_and_tight_witness :
    eq (copy_ctor junk v12_cap3).1 v12_cap3 = true ∧
    (copy_ctor junk v12_cap3).1.GetCapacity = 2 ∧
    v12_cap3.GetCapacity = 3 ∧
    eq (copy_assign junk v7 v12_cap3).1 v12_cap3 = true :=
  have h := copy_is_equal_and_tight junk v7 v12_cap3 (by unfold SimpleVector.Valid; decide)
  ⟨h.1.1, h.1.2.2.2.1, by decide, h.2.1⟩

/-- C6. `At(i)` fails with `out_of_range` exactly when `i >= GetSize()`; for
`i < GetSize()` it returns the element `operator[]` gives; either way the
sequence is as before. -/
theorem At_checks_index [Inhabited T] (S : SimpleVector T) (i : Nat) :
    ((∃ what, (At S i).1 = .error (.out_of_range what)) ↔ S.GetSize ≤ i) ∧
    (i < S.GetSize → (At S i).1 = .ok (S.index i)) ∧
    (At S i).2 = S := by
  by_cases h : i ≥ S.size_
  · have e : At S i = (.error (.out_of_range "Invalid index: out of range"), S) := by
      simp [At, h]
    rw [e]
    exact ⟨⟨fun _ => h, fun _ => ⟨_, rfl⟩⟩, fun c => absurd c (by simp [GetSize]; omega), rfl⟩
  · have e : At S i = (.ok (S.array_.index i), S) := by simp [At, h]
    rw [e]
    refine ⟨⟨fun ⟨w, hw⟩ => ?_, fun c => absurd c h⟩, fun _ => rfl, rfl⟩
    cases hw

/-- Witness of C6: on `{1,2,3}`, `At(3)` fails and `At(2)` returns the last
element. -/
theorem At_checks_index_witness :
    (∃ what, (At v123 3).1 = .error (.out_of_range what)) ∧ (At v123 2).1 = .ok 3 :=
  ⟨(At_checks_index v123 3).1.2 (by decide),
   (At_checks_index v123 2).2.1 (by decide)⟩



theorem GetSize_eq (S : SimpleVector T) : S.GetSize = S.size_ := rfl

theorem GetCapacity_eq (S : SimpleVector T) : S.GetCapacity = S.capacity_ := rfl

theorem PopBack_size (S : SimpleVector T) : (PopBack S).size_ = size_pred S.size_ := rfl

theorem PopBack_capacity (S : SimpleVector T) : (PopBack S).capacity_ = S.capacity_ := rfl

theorem PopBack_array (S : SimpleVector T) : (PopBack S).array_ = S.array_ := rfl

/-- C7. For `n <= GetCapacity()`, `Resize(n)` sets the size to `n`, keeps the
capacity, keeps every element below `min(n, old size)` and makes every element in
`[old size, n)` equal to `Type{}`, whatever the cells behind the old end held. -/
theorem Resize_within_capacity [Inhabited T] (raw : Nat → T) (S : SimpleVector T) (n : Nat)
    (hv : S.Valid) (hn : n ≤ S.GetCapacity) :
    (Resize raw S n).GetSize = n ∧
    (Resize raw S n).GetCapacity = S.GetCapacity ∧
    (∀ i, i < min n S.GetSize → (Resize raw S n).index i = S.index i) ∧
    (∀ i, S.GetSize ≤ i → i < n → (Resize raw S n).index i = default) := by
  simp only [GetSize, GetCapacity] at *
  by_cases hm : n ≤ S.size_
  · rw [Resize_shrink raw S n hm]
    exact ⟨rfl, rfl, fun _ _ => rfl, fun i h1 h2 => absurd h2 (by omega)⟩
  · obtain ⟨e, hc⟩ := Resize_refill raw S n hv (by omega) hn
    have hi := index_content_append S (Resize raw S n).array_ _ hv hc
    refine ⟨by rw [e], by rw [e], fun i h => ?_, fun i h1 h2 => ?_⟩
    · have : i < S.size_ := by omega
      rw [index, hi, if_pos this]
    · have : ¬ i < S.size_ := by omega
      rw [index, hi, if_neg this]

/-- Witness of C7: `{1,2,3}` after `PopBack()` keeps a stale `3` in slot 2;
`Resize(3)` exposes `Type{}` there. -/
theorem Resize_within_capacity_witness :
    v12_cap3.array_.cells = [1, 2, 3] ∧
    (Resize junk v12_cap3 3).GetSize = 3 ∧
    (Resize junk v12_cap3 3).index 2 = 0 :=
  have h := Resize_within_capacity junk v12_cap3 3 (by unfold SimpleVector.Valid; decide)
    (by decide)
  ⟨by decide, h.1, h.2.2.2 2 (by decide) (by decide)⟩

/-- C8. For `n > GetCapacity()` with `2 * capacity` representable, `Resize(n)`
makes the capacity `max(n, 2 * capacity)` and the size `n`, on a block of that
many cells; every cell below the old size keeps its element and every cell from
the old size up to the new capacity, those of `[old size, n)` among them, holds
`Type{}`: the content is the old content followed by `n - old size` default
values. -/
theorem Resize_beyond_capacity [Inhabited T] (raw : Nat → T) (S : SimpleVector T) (n : Nat)
    (hv : S.Valid) (hn : S.GetCapacity < n) (h2 : 2 * S.GetCapacity < SIZE_MOD) :
    (Resize raw S n).GetCapacity = max n (2 * S.GetCapacity) ∧
    (Resize raw S n).GetSize = n ∧
    (Resize raw S n).array_.cells.length = max n (2 * S.GetCapacity) ∧
    (∀ i, i < S.GetSize → (Resize raw S n).array_.cells[i]? = S.array_.cells[i]?) ∧
    (∀ i, S.GetSize ≤ i → i < max n (2 * S.GetCapacity) →
      (Resize raw S n).array_.cells[i]? = some default) ∧
    (Resize raw S n).content = S.content ++ List.replicate (n - S.GetSize) default ∧
    (∀ i, i < S.GetSize → (Resize raw S n).index i = S.index i) ∧
    (∀ i, S.GetSize ≤ i → i < n → (Resize raw S n).index i = default) := by
  simp only [GetSize, GetCapacity] at *
  obtain ⟨e1, e2, hc⟩ := Resize_realloc raw S n hv hn
  have hi := index_content_append S (Resize raw S n).array_ _ hv hc
  have hlen := length_content S hv
  have hmod : S.capacity_ * 2 % SIZE_MOD = 2 * S.capacity_ := by
    rw [Nat.mul_comm, Nat.mod_eq_of_lt h2]
  rw [hmod] at e2 hc
  have hsn : S.size_ ≤ n := by have := hv.2.1; omega
  have hnm : n ≤ max n (2 * S.capacity_) := Nat.le_max_left _ _
  refine ⟨e2, e1, ?_, fun i h => ?_, fun i h1 h3 => ?_, ?_, fun i h => ?_, fun i h1 _ => ?_⟩
  · rw [hc, List.length_append, List.length_replicate, hlen]
    omega
  · rw [hc, List.getElem?_append_left (by omega), content, List.getElem?_take_of_lt h]
  · rw [hc, List.getElem?_append_right (by omega), List.getElem?_replicate,
      if_pos (by omega)]
  · rw [content, e1, hc, List.take_append_eq_append_take, hlen, List.take_of_length_le
      (by omega), List.take_replicate, Nat.min_eq_left (by omega)]
  · rw [index, hi, if_pos h]
  · have : ¬ i < S.size_ := by omega
    rw [index, hi, if_neg this]

/-- Witness of C8: `Resize(4)` on `{1,2,3}` (capacity 3) leaves a block of six
cells, three of them new `Type{}` values; `Resize(9)` gives capacity 9. -/
theorem Resize_beyond_capacity_witness :
    (Resize junk v123 4).GetCapacity = 6 ∧ (Resize junk v123 4).GetSize = 4 ∧
    (Resize junk v123 4).array_.cells = [1, 2, 3, 0, 0, 0] ∧
    (Resize junk v123 4).content = [1, 2, 3, 0] ∧
    (Resize junk v123 9).GetCapacity = 9 :=
  have h := Resize_beyond_capacity junk v123 4 (by unfold SimpleVector.Valid; decide)
    (by decide) (by decide)
  ⟨h.1, h.2.1, by decide, h.2.2.2.2.2.1, by decide⟩

/-- C9. `v.PushBack(v[0])` on the full `SimpleVector<std::string>{"a", "b"}`:
`item` refers to cell 0 of the block and is read after `Resize(3)` has moved the
elements into a new block, so the element stored at index 2 is the moved-from
string `""`, not `"a"`; the same with `v.PushBack(std::move(v[0]))`.  With room
left (size 2, capacity 3) the same call pushes the element it names. -/
theorem PushBack_of_own_element_after_reallocation :
    sab.index 0 = "a" ∧ sab.GetSize = 2 ∧ sab.GetCapacity = 2 ∧
    (PushBack fresh_str moved_str sab (.cell 0)).content = ["a", "b", ""] ∧
    (PushBack fresh_str moved_str sab (.cell 0)).index 2 ≠ sab.index 0 ∧
    (PushBack_move fresh_str moved_str sab (.cell 0)).content = ["a", "b", ""] ∧
    (PushBack fresh_str moved_str sab (.outside "a")).content = ["a", "b", "a"] ∧
    (PushBack junk moved_int v12_cap3 (.cell 0)).content = [1, 2, 1] := by
  decide

/-- C10. `PushBack(x)` followed by `PopBack()` restores the size and leaves every
element below it unchanged, so the result compares `==` to the original, whether
or not the push reallocated and whether `x` is an object outside the sequence or
one of its own cells. -/
theorem PushBack_then_PopBack [Inhabited T] [DecidableEq T] (raw : Nat → T) (mv : T → T)
    (S : SimpleVector T) (item : Arg T) (hv : S.Valid)
    (hfit : S.GetSize + 1 < SIZE_MOD) :
    (PopBack (PushBack raw mv S item)).GetSize = S.GetSize ∧
    (∀ i, i < S.GetSize → (PopBack (PushBack raw mv S item)).index i = S.index i) ∧
    (PopBack (PushBack raw mv S item)).content = S.content ∧
    eq (PopBack (PushBack raw mv S item)) S = true := by
  rw [GetSize_eq, GetSize_eq] at *
  obtain ⟨h1, _, h3⟩ := PushBack_cells raw mv S item hv hfit
  have hlen := length_content S hv
  have hsz : (PopBack (PushBack raw mv S item)).size_ = S.size_ := by
    rw [PopBack_size, h1, size_pred_succ]
  have hcells : (PopBack (PushBack raw mv S item)).array_.cells =
      (PushBack raw mv S item).array_.cells := by
    rw [PopBack_array]
  have hcont : (PopBack (PushBack raw mv S item)).content = S.content := by
    rw [content, hsz, hcells, h3, ← hlen, List.take_left]
  refine ⟨hsz, fun i h => ?_, hcont, ?_⟩
  · rw [index, index_eq, hcells, h3, List.getElem?_append_left (by omega), index, index_eq,
      content, List.getElem?_take_of_lt h]
  · rw [eq, hcont]; exact std_equal_self _

/-- Witness of C10, on a push that reallocates. -/
theorem PushBack_then_PopBack_witness :
    (PopBack (PushBack junk moved_int v123 (.outside 5))).GetSize = 3 ∧
    (PushBack junk moved_int v123 (.outside 5)).GetCapacity = 6 ∧
    eq (PopBack (PushBack junk moved_int v123 (.outside 5))) v123 = true :=
  have h := PushBack_then_PopBack junk moved_int v123 (.outside 5)
    (by unfold SimpleVector.Valid; decide) (by decide)
  ⟨h.1, by decide, h.2.2.2⟩


namespace SimpleVector

/-! ## Size and capacity bookkeeping -/

theorem Resize_capacity_le [Inhabited T] (raw : Nat → T) (S : SimpleVector T) (n : Nat) :
    S.capacity_ ≤ (Resize raw S n).capacity_ := by
  unfold Resize
  split_ifs with h0 h1 h2 h3
  · exact Nat.le_refl _
  · exact Nat.le_refl _
  · exact Nat.le_refl _
  · exact Nat.le_trans (Nat.le_of_lt h3) (Nat.le_max_left _ _)
  · exact Nat.le_refl _

theorem Resize_capacity_eq [Inhabited T] (raw : Nat → T) (S : SimpleVector T) (n : Nat)
    (hn : n ≤ S.capacity_) : (Resize raw S n).capacity_ = S.capacity_ := by
  unfold Resize
  split_ifs <;> rfl

theorem Resize_size_le [Inhabited T] (raw : Nat → T) (S : SimpleVector T) (n : Nat)
    (hS : S.size_ ≤ S.capacity_) : (Resize raw S n).size_ ≤ (Resize raw S n).capacity_ := by
  unfold Resize
  split_ifs with h0 h1 h2 h3
  · exact Nat.zero_le _
  · exact Nat.le_trans h1 hS
  · exact h2
  · exact Nat.le_max_left _ _
  · exact hS

theorem PushBack_size [Inhabited T] (raw : Nat → T) (mv : T → T) (S : SimpleVector T)
    (item : Arg T) :
    (PushBack raw mv S item).size_ = (Resize raw S ((S.size_ + 1) % SIZE_MOD)).size_ :=
  rfl

theorem PushBack_capacity [Inhabited T] (raw : Nat → T) (mv : T → T) (S : SimpleVector T)
    (item : Arg T) :
    (PushBack raw mv S item).capacity_ =
      (Resize raw S ((S.size_ + 1) % SIZE_MOD)).capacity_ :=
  rfl

theorem PushBack_move_size [Inhabited T] (raw : Nat → T) (mv : T → T)
    (S : SimpleVector T) (item : Arg T) :
    (PushBack_move raw mv S item).size_ =
      (Resize raw S ((S.size_ + 1) % SIZE_MOD)).size_ := by
  cases item with
  | outside x => rfl
  | cell j =>
    simp only [PushBack_move]
    split <;> rfl

theorem PushBack_move_capacity [Inhabited T] (raw : Nat → T) (mv : T → T)
    (S : SimpleVector T) (item : Arg T) :
    (PushBack_move raw mv S item).capacity_ =
      (Resize raw S ((S.size_ + 1) % SIZE_MOD)).capacity_ := by
  cases item with
  | outside x => rfl
  | cell j =>
    simp only [PushBack_move]
    split <;> rfl

theorem Insert_size [Inhabited T] (raw : Nat → T) (S : SimpleVector T) (k : Nat) (x : T) :
    (Insert raw S k x).1.size_ = (Resize raw S ((S.size_ + 1) % SIZE_MOD)).size_ := rfl

theorem Insert_capacity [Inhabited T] (raw : Nat → T) (S : SimpleVector T) (k : Nat)
    (x : T) :
    (Insert raw S k x).1.capacity_ = (Resize raw S ((S.size_ + 1) % SIZE_MOD)).capacity_ :=
  rfl

theorem Insert_move_size [Inhabited T] (raw : Nat → T) (mv : T → T) (S : SimpleVector T)
    (k : Nat) (x : T) :
    (Insert_move raw mv S k x).1.size_ = (Resize raw S ((S.size_ + 1) % SIZE_MOD)).size_ :=
  rfl

theorem Insert_move_capacity [Inhabited T] (raw : Nat → T) (mv : T → T)
    (S : SimpleVector T) (k : Nat) (x : T) :
    (Insert_move raw mv S k x).1.capacity_ =
      (Resize raw S ((S.size_ + 1) % SIZE_MOD)).capacity_ :=
  rfl

theorem Erase_capacity (mv : T → T) (S : SimpleVector T) (k : Nat) :
    (Erase mv S k).1.capacity_ = S.capacity_ := by
  unfold Erase
  split_ifs <;> rfl

theorem Erase_size (mv : T → T) (S : SimpleVector T) (k : Nat) (hk : k < S.size_) :
    (Erase mv S k).1.size_ = S.size_ - 1 := by
  have hne : k ≠ S.size_ := by omega
  simp only [Erase, if_neg hne]
  exact size_pred_pos _ (by omega)

theorem Reserve_noop [Inhabited T] (raw : Nat → T) (S : SimpleVector T) (c : Nat)
    (hc : c ≤ S.capacity_) : SimpleVector.Reserve raw S c = S := by
  have : ¬ S.capacity_ < c := by omega
  simp only [SimpleVector.Reserve, if_neg this]

theorem Reserve_grow [Inhabited T] (raw : Nat → T) (S : SimpleVector T) (c : Nat)
    (hc : S.capacity_ < c) :
    SimpleVector.Reserve raw S c =
      { array_ := ((ArrayPtr.alloc raw c).onBlock (fill_range c 0 default)).onBlock
          (copy_into S.size_ 0 S.array_.cells 0)
        size_ := S.size_
        capacity_ := c } := by
  simp only [SimpleVector.Reserve, if_pos hc]
  rfl

/-- A fresh block filled front to back with one value. -/
theorem filled_block (raw : Nat → T) (n : Nat) (v : T) :
    fill_range n 0 v ((List.range n).map raw) = List.replicate n v := by
  apply List.ext_getElem?
  intro i
  rw [getElem?_fill_range, List.getElem?_replicate]
  simp only [List.length_map, List.length_range, Nat.zero_add, Nat.zero_le, true_and]
  by_cases h : i < n
  · rw [if_pos ⟨h, h⟩, if_pos h]
  · have a : ¬ (i < n ∧ i < n) := fun c => h c.1
    rw [if_neg a, if_neg h]
    exact List.getElem?_eq_none (by simp; omega)

theorem cells_of_size_value (raw : Nat → T) (n : Nat) (v : T) :
    (of_size_value raw n v).array_.cells = List.replicate n v := by
  show ((ArrayPtr.alloc raw n).onBlock (fill_range n 0 v)).cells = _
  rw [cells_onBlock _ _ (fill_range_nil _ _ _), cells_alloc]
  exact filled_block raw n v

theorem cells_of_size [Inhabited T] (raw : Nat → T) (n : Nat) :
    (of_size raw n : SimpleVector T).array_.cells = List.replicate n default := by
  show ((ArrayPtr.alloc raw n).onBlock (fill_range n 0 default)).cells = _
  rw [cells_onBlock _ _ (fill_range_nil _ _ _), cells_alloc]
  exact filled_block raw n default

end SimpleVector



/-- C13. Invariant A, `GetSize() <= GetCapacity()`, holds for the result of every
constructor and is preserved by `Reserve`, `Clear`, `Resize`, `PushBack`,
`Insert`, `PopBack` (on a non-empty sequence), `Erase` (at a position before the
end), `swap`, copy assignment and move assignment. -/
theorem InvariantA_everywhere [Inhabited T] (raw : Nat → T) (mv : T → T)
    (S D : SimpleVector T) (n k : Nat) (x : T) (item : Arg T) (init : List T)
    (o : ReserveProxyObj) (hS : S.InvariantA) (hD : D.InvariantA) :
    ((empty : SimpleVector T).InvariantA ∧
      (of_size raw n : SimpleVector T).InvariantA ∧
      (of_size_value raw n x).InvariantA ∧
      (of_size_value_move raw mv n x).InvariantA ∧
      (of_init raw init).InvariantA ∧
      (of_reserve raw o : SimpleVector T).InvariantA ∧
      (copy_ctor raw S).1.InvariantA ∧
      (move_ctor S).1.InvariantA ∧ (move_ctor S).2.InvariantA) ∧
    ((SimpleVector.Reserve raw S n).InvariantA ∧
      (Clear S).InvariantA ∧
      (Resize raw S n).InvariantA ∧
      (PushBack raw mv S item).InvariantA ∧
      (PushBack_move raw mv S item).InvariantA ∧
      (Insert raw S k x).1.InvariantA ∧
      (Insert_move raw mv S k x).1.InvariantA ∧
      (0 < S.GetSize → (PopBack S).InvariantA) ∧
      (k < S.GetSize → (Erase mv S k).1.InvariantA) ∧
      (SimpleVector.swap S D).1.InvariantA ∧ (SimpleVector.swap S D).2.InvariantA ∧
      (copy_assign raw D S).1.InvariantA ∧ (copy_assign raw D S).2.InvariantA ∧
      (move_assign D S).1.InvariantA ∧ (move_assign D S).2.InvariantA) := by
  have hS2 : S.size_ ≤ S.capacity_ := hS
  have hD2 : D.size_ ≤ D.capacity_ := hD
  have hres : ∀ m, (Resize raw S m).size_ ≤ (Resize raw S m).capacity_ :=
    fun m => Resize_size_le raw S m hS2
  refine ⟨⟨Nat.le_refl _, Nat.le_refl _, Nat.le_refl _, Nat.le_refl _, Nat.le_refl _, ?_,
    Nat.le_refl _, hS2, Nat.le_refl _⟩, ⟨?_, Nat.zero_le _, hres n, ?_, ?_, ?_, ?_, ?_, ?_,
    hD2, hS2, Nat.le_refl _, hS2, hS2, hD2⟩⟩
  · show (SimpleVector.Reserve raw (empty : SimpleVector T) o.GetCapacity).size_ ≤
      (SimpleVector.Reserve raw (empty : SimpleVector T) o.GetCapacity).capacity_
    by_cases h0 : (empty : SimpleVector T).capacity_ < o.GetCapacity
    · rw [Reserve_grow raw _ _ h0]; exact Nat.zero_le _
    · rw [Reserve_noop raw _ _ (by omega)]; exact Nat.le_refl _
  · show (SimpleVector.Reserve raw S n).size_ ≤ (SimpleVector.Reserve raw S n).capacity_
    by_cases h0 : S.capacity_ < n
    · rw [Reserve_grow raw _ _ h0]
      show S.size_ ≤ n
      omega
    · rw [Reserve_noop raw _ _ (by omega)]; exact hS2
  · show (PushBack raw mv S item).size_ ≤ (PushBack raw mv S item).capacity_
    rw [PushBack_size, PushBack_capacity]; exact hres _
  · show (PushBack_move raw mv S item).size_ ≤ (PushBack_move raw mv S item).capacity_
    rw [PushBack_move_size, PushBack_move_capacity]; exact hres _
  · show (Insert raw S k x).1.size_ ≤ (Insert raw S k x).1.capacity_
    rw [Insert_size, Insert_capacity]; exact hres _
  · show (Insert_move raw mv S k x).1.size_ ≤ (Insert_move raw mv S k x).1.capacity_
    rw [Insert_move_size, Insert_move_capacity]; exact hres _
  · intro h
    rw [GetSize_eq] at h
    show (PopBack S).size_ ≤ (PopBack S).capacity_
    rw [PopBack_size, PopBack_capacity, size_pred_pos _ h]
    omega
  · intro h
    rw [GetSize_eq] at h
    show (Erase mv S k).1.size_ ≤ (Erase mv S k).1.capacity_
    rw [Erase_size mv S k h, Erase_capacity]
    omega

/-- Witness of C13, on `{1,2,3}` and `{7}`. -/
theorem InvariantA_everywhere_witness :
    (PushBack junk moved_int v123 (.cell 0)).InvariantA ∧ (PopBack v123).InvariantA ∧
    (Erase moved_int v123 1).1.InvariantA :=
  have h := InvariantA_everywhere junk moved_int v123 v7 4 1 5 (.cell 0) [1, 2]
    (SimpleVec.Reserve 3)
    (by unfold SimpleVector.InvariantA; decide) (by unfold SimpleVector.InvariantA; decide)
  ⟨h.2.2.2.2.1, h.2.2.2.2.2.2.2.2.1 (by decide), h.2.2.2.2.2.2.2.2.2.1 (by decide)⟩

/-- C18. The sequence constructed from `(n, v)` has size `n`, capacity `n` and
every element equal to `v`; the one constructed from `n` alone has size `n`,
capacity `n` and every element equal to `Type{}`; for `n == 0` both are the empty
sequence with a null buffer. -/
theorem count_constructors_fill [Inhabited T] (raw : Nat → T) (n : Nat) (v : T) :
    ((of_size_value raw n v).GetSize = n ∧
      (of_size_value raw n v).GetCapacity = n ∧
      (of_size_value raw n v).content = List.replicate n v ∧
      ∀ i, i < n → (of_size_value raw n v).index i = v) ∧
    ((of_size raw n : SimpleVector T).GetSize = n ∧
      (of_size raw n : SimpleVector T).GetCapacity = n ∧
      (of_size raw n : SimpleVector T).content = List.replicate n default ∧
      ∀ i, i < n → (of_size raw n : SimpleVector T).index i = default) ∧
    (of_size_value raw 0 v = empty ∧ (of_size raw 0 : SimpleVector T) = empty ∧
      (empty : SimpleVector T).array_.raw_ptr_ = none ∧
      (empty : SimpleVector T).GetSize = 0 ∧ (empty : SimpleVector T).GetCapacity = 0) := by
  refine ⟨⟨rfl, rfl, ?_, fun i hi => ?_⟩, ⟨rfl, rfl, ?_, fun i hi => ?_⟩,
    rfl, rfl, rfl, rfl, rfl⟩
  · have e : (of_size_value raw n v).size_ = n := rfl
    rw [content, cells_of_size_value, e]
    simp
  · rw [index, index_eq, cells_of_size_value, List.getElem?_replicate, if_pos hi]
    rfl
  · have e : (of_size raw n : SimpleVector T).size_ = n := rfl
    rw [content, cells_of_size, e]
    simp
  · rw [index, index_eq, cells_of_size, List.getElem?_replicate, if_pos hi]
    rfl

/-- C19. For `m < n <= c` (old size `m`, capacity `c`), `Resize(n)` writes `Type{}`
into every cell of `[m, c)`, not only into `[m, n)`, leaves the cells of `[0, m)`
as they were and sets the size to `n`. -/
theorem Resize_refills_to_capacity [Inhabited T] (raw : Nat → T) (S : SimpleVector T)
    (n : Nat) (hv : S.Valid) (hm : S.GetSize < n) (hn : n ≤ S.GetCapacity) :
    (∀ i, S.GetSize ≤ i → i < S.GetCapacity →
      (Resize raw S n).array_.cells[i]? = some default) ∧
    (∀ i, i < S.GetSize → (Resize raw S n).array_.cells[i]? = S.array_.cells[i]?) ∧
    (Resize raw S n).array_.cells.length = S.GetCapacity ∧
    (Resize raw S n).GetSize = n ∧
    (Resize raw S n).GetCapacity = S.GetCapacity := by
  rw [GetSize_eq] at hm
  rw [GetCapacity_eq] at hn
  simp only [GetSize_eq, GetCapacity_eq]
  obtain ⟨e, hc⟩ := Resize_refill raw S n hv hm hn
  have hlen := length_content S hv
  obtain ⟨hl, hs, _⟩ := hv
  refine ⟨fun i h1 h2 => ?_, fun i h => ?_, ?_, by rw [e], by rw [e]⟩
  · rw [hc, List.getElem?_append_right (by omega), List.getElem?_replicate, if_pos (by omega)]
  · rw [hc, List.getElem?_append_left (by omega), content, List.getElem?_take_of_lt h]
  · rw [hc, List.length_append, List.length_replicate, hlen]
    omega

/-- Witness of C19: `{1,2,3,4}` cleared and resized to 1 has all of cells 0..3
reset, although only cell 0 is exposed. -/
theorem Resize_refills_to_capacity_witness :
    (Resize junk (Clear (SimpleVector.of_init junk [1, 2, 3, 4])) 1).array_.cells =
      [0, 0, 0, 0] ∧
    (Resize junk (Clear (SimpleVector.of_init junk [1, 2, 3, 4])) 1).GetSize = 1 :=
  have h := Resize_refills_to_capacity junk (Clear (SimpleVector.of_init junk [1, 2, 3, 4])) 1
    (by unfold SimpleVector.Valid; decide) (by decide) (by decide)
  ⟨by decide, h.2.2.2.1⟩

/-- C20. The capacity never decreases under `Clear`, `Resize`, `Reserve`,
`PushBack`, `Insert`, `PopBack` and `Erase`, and it is unchanged by `Clear`,
`PopBack`, `Erase`, by `Resize(n)` with `n <= GetCapacity()` and by `Reserve(c)`
with `c <= GetCapacity()`. -/
theorem capacity_never_decreases [Inhabited T] (raw : Nat → T) (mv : T → T)
    (S : SimpleVector T) (n c k : Nat) (x : T) (item : Arg T) :
    (S.GetCapacity ≤ (Clear S).GetCapacity ∧
      S.GetCapacity ≤ (Resize raw S n).GetCapacity ∧
      S.GetCapacity ≤ (SimpleVector.Reserve raw S c).GetCapacity ∧
      S.GetCapacity ≤ (PushBack raw mv S item).GetCapacity ∧
      S.GetCapacity ≤ (PushBack_move raw mv S item).GetCapacity ∧
      S.GetCapacity ≤ (Insert raw S k x).1.GetCapacity ∧
      S.GetCapacity ≤ (Insert_move raw mv S k x).1.GetCapacity ∧
      S.GetCapacity ≤ (PopBack S).GetCapacity ∧
      S.GetCapacity ≤ (Erase mv S k).1.GetCapacity) ∧
    ((Clear S).GetCapacity = S.GetCapacity ∧
      (PopBack S).GetCapacity = S.GetCapacity ∧
      (Erase mv S k).1.GetCapacity = S.GetCapacity ∧
      (n ≤ S.GetCapacity → (Resize raw S n).GetCapacity = S.GetCapacity) ∧
      (c ≤ S.GetCapacity → (SimpleVector.Reserve raw S c).GetCapacity = S.GetCapacity)) := by
  simp only [GetCapacity_eq]
  have hres := Resize_capacity_le raw S
  refine ⟨⟨Nat.le_refl _, hres n, ?_, ?_, ?_, ?_, ?_, ?_, ?_⟩,
    ⟨rfl, PopBack_capacity S, Erase_capacity mv S k,
      fun h => Resize_capacity_eq raw S n h, fun h => by rw [Reserve_noop raw S c h]⟩⟩
  · by_cases h0 : S.capacity_ < c
    · rw [Reserve_grow raw _ _ h0]
      show S.capacity_ ≤ c
      omega
    · rw [Reserve_noop raw _ _ (by omega)]
  · rw [PushBack_capacity]; exact hres _
  · rw [PushBack_move_capacity]; exact hres _
  · rw [Insert_capacity]; exact hres _
  · rw [Insert_move_capacity]; exact hres _
  · rw [PopBack_capacity]
  · rw [Erase_capacity]


/-! ## Comparisons -/

theorem std_equal_iff [DecidableEq T] (l1 l2 : List T) : std_equal l1 l2 = true ↔ l1 = l2 := by
  induction l1 generalizing l2 with
  | nil => cases l2 <;> simp [std_equal]
  | cons a as ih => cases l2 <;> simp [std_equal, ih]

theorem lex_irrefl [LinearOrder T] (l : List T) : lexicographical_compare l l = false := by
  induction l with
  | nil => rfl
  | cons a as ih => simp [lexicographical_compare, ih]

/-- The comparison of `l2` with `l1` is the negation of `l1 == l2 || l1 < l2`. -/
theorem lex_flip [LinearOrder T] (l1 l2 : List T) :
    lexicographical_compare l2 l1 = !(std_equal l1 l2 || lexicographical_compare l1 l2) := by
  induction l1 generalizing l2 with
  | nil => cases l2 <;> simp [std_equal, lexicographical_compare]
  | cons a as ih =>
    cases l2 with
    | nil => simp [std_equal, lexicographical_compare]
    | cons b bs =>
      rcases lt_trichotomy a b with h | h | h
      · have h2 : ¬ b < a := not_lt_of_lt h
        simp [lexicographical_compare, h, h2]
      · subst h
        simp [lexicographical_compare, std_equal, ih]
      · have h2 : ¬ a < b := not_lt_of_lt h
        have h3 : a ≠ b := ne_of_gt h
        simp [lexicographical_compare, std_equal, h, h2, h3]

/-- The loop of `std::lexicographical_compare` decides the lexicographical order:
a first differing position where the left element is smaller, or the left range
is a proper prefix of the right one. -/
theorem lex_iff [LinearOrder T] (l1 l2 : List T) :
    lexicographical_compare l1 l2 = true ↔
      (∃ k : Nat, (∀ i, i < k → l1[i]? = l2[i]?) ∧
        ∃ x y : T, l1[k]? = some x ∧ l2[k]? = some y ∧ x < y) ∨
      (l1.length < l2.length ∧ ∀ i, i < l1.length → l1[i]? = l2[i]?) := by
  induction l1 generalizing l2 with
  | nil =>
    cases l2 with
    | nil => simp [lexicographical_compare]
    | cons b bs => simp [lexicographical_compare]
  | cons a as ih =>
    cases l2 with
    | nil => simp [lexicographical_compare]
    | cons b bs =>
      rcases lt_trichotomy a b with h | h | h
      · have e : lexicographical_compare (a :: as) (b :: bs) = true := by
          simp [lexicographical_compare, h]
        rw [e]
        refine ⟨fun _ => Or.inl ⟨0, fun i hi => absurd hi (Nat.not_lt_zero i), a, b,
          by simp, by simp, h⟩, fun _ => rfl⟩
      · subst h
        have e : lexicographical_compare (a :: as) (a :: bs) =
            lexicographical_compare as bs := by
          simp [lexicographical_compare]
        rw [e, ih bs]
        constructor
        · rintro (⟨k, hk, x, y, hx, hy, hxy⟩ | ⟨hlen, hall⟩)
          · refine Or.inl ⟨k + 1, fun i hi => ?_, x, y, by simpa using hx, by simpa using hy,
              hxy⟩
            cases i with
            | zero => simp
            | succ j => simpa using hk j (by omega)
          · refine Or.inr ⟨by simpa using hlen, fun i hi => ?_⟩
            cases i with
            | zero => simp
            | succ j => simpa using hall j (by simpa using hi)
        · rintro (⟨k, hk, x, y, hx, hy, hxy⟩ | ⟨hlen, hall⟩)
          · cases k with
            | zero =>
              simp at hx hy
              subst hx; subst hy
              exact absurd hxy (lt_irrefl _)
            | succ j =>
              refine Or.inl ⟨j, fun i hi => ?_, x, y, by simpa using hx, by simpa using hy,
                hxy⟩
              simpa using hk (i + 1) (by omega)
          · refine Or.inr ⟨by simpa using hlen, fun i hi => ?_⟩
            simpa using hall (i + 1) (by simpa using hi)
      · have h2 : ¬ a < b := not_lt_of_lt h
        have e : lexicographical_compare (a :: as) (b :: bs) = false := by
          simp [lexicographical_compare, h, h2]
        rw [e]
        constructor
        · intro c; cases c
        · rintro (⟨k, hk, x, y, hx, hy, hxy⟩ | ⟨_, hall⟩)
          · cases k with
            | zero =>
              simp at hx hy
              subst hx; subst hy
              exact absurd hxy h2
            | succ j =>
              have := hk 0 (by omega)
              simp at this
              exact absurd this (ne_of_gt h)
          · have := hall 0 (by simp)
            simp at this
            exact absurd this (ne_of_gt h)

namespace SimpleVector

theorem getElem?_content [Inhabited T] (S : SimpleVector T) (hv : S.Valid) (i : Nat) :
    S.content[i]? = if i < S.size_ then some (S.index i) else none := by
  obtain ⟨hl, hs, _⟩ := hv
  rw [content, List.getElem?_take]
  by_cases h : i < S.size_
  · have hi : i < S.array_.cells.length := by omega
    rw [if_pos h, if_pos h, index, index_eq, List.getElem?_eq_getElem hi]
    rfl
  · rw [if_neg h, if_neg h]

/-- Two valid sequences have the same content exactly when they have the same
size and the same element at every index below it. -/
theorem content_eq_iff [Inhabited T] (a b : SimpleVector T) (ha : a.Valid) (hb : b.Valid) :
    a.content = b.content ↔
      a.size_ = b.size_ ∧ ∀ i, i < a.size_ → a.index i = b.index i := by
  constructor
  · intro h
    have hsz : a.size_ = b.size_ := by
      rw [← length_content a ha, ← length_content b hb, h]
    refine ⟨hsz, fun i hi => ?_⟩
    have h1 := getElem?_content a ha i
    have h2 := getElem?_content b hb i
    rw [h, h2, if_pos hi, if_pos (by omega)] at h1
    exact (Option.some.inj h1).symm
  · rintro ⟨hsz, hall⟩
    apply List.ext_getElem?
    intro i
    rw [getElem?_content a ha, getElem?_content b hb, ← hsz]
    by_cases hi : i < a.size_
    · rw [if_pos hi, if_pos hi, hall i hi]
    · rw [if_neg hi, if_neg hi]

end SimpleVector



/-- C14. `a == b` holds exactly when the sizes are equal and `a[i] == b[i]` for
every `i` below the size; it depends on the two contents `[begin(), end())` only,
not on the capacities or on the cells behind the end; `a != b` is its negation. -/
theorem eq_iff_same_size_and_elements [Inhabited T] [DecidableEq T] (a b : SimpleVector T)
    (ha : a.Valid) (hb : b.Valid) :
    (eq a b = true ↔
      a.GetSize = b.GetSize ∧ ∀ i, i < a.GetSize → a.index i = b.index i) ∧
    (∀ a2 b2 : SimpleVector T, a2.content = a.content → b2.content = b.content →
      eq a2 b2 = eq a b) ∧
    ne a b = !(eq a b) := by
  refine ⟨?_, fun a2 b2 h1 h2 => ?_, rfl⟩
  · rw [eq, std_equal_iff, content_eq_iff a b ha hb]
    exact Iff.rfl
  · rw [eq, eq, h1, h2]

/-- Witness of C14: `{1,2}` with capacity 3 and a stale cell equals `{1,2}` with
capacity 2, and differs from `{1,2,3}`. -/
theorem eq_iff_same_size_and_elements_witness :
    eq v12_cap3 v12 = true ∧ v12_cap3.GetCapacity ≠ v12.GetCapacity ∧
    eq v12_cap3 v123 = false :=
  have h := eq_iff_same_size_and_elements v12_cap3 v12
    (by unfold SimpleVector.Valid; decide) (by unfold SimpleVector.Valid; decide)
  ⟨h.1.2 (by decide), by decide, by decide⟩

/-- C15. `a < b` holds exactly when there is an index `k` below both sizes with
`a[i] == b[i]` for all `i < k` and `a[k] < b[k]`, or `a` is shorter than `b` and
all elements of `a` match: the lexicographical order of the contents. -/
theorem lt_is_lexicographical [Inhabited T] [LinearOrder T] (a b : SimpleVector T)
    (ha : a.Valid) (hb : b.Valid) :
    lt a b = true ↔
      (∃ k, k < min a.GetSize b.GetSize ∧ (∀ i, i < k → a.index i = b.index i) ∧
        a.index k < b.index k) ∨
      (a.GetSize < b.GetSize ∧ ∀ i, i < a.GetSize → a.index i = b.index i) := by
  simp only [GetSize_eq]
  rw [lt, lex_iff]
  have hA := getElem?_content a ha
  have hB := getElem?_content b hb
  have hla := length_content a ha
  have hlb := length_content b hb
  constructor
  · rintro (⟨k, hk, x, y, hx, hy, hxy⟩ | ⟨hlen, hall⟩)
    · have hka : k < a.size_ := by
        by_contra hc
        rw [hA, if_neg hc] at hx
        cases hx
      have hkb : k < b.size_ := by
        by_contra hc
        rw [hB, if_neg hc] at hy
        cases hy
      rw [hA, if_pos hka] at hx
      rw [hB, if_pos hkb] at hy
      refine Or.inl ⟨k, Nat.lt_min.mpr ⟨hka, hkb⟩, fun i hi => ?_, ?_⟩
      · have h := hk i hi
        rw [hA, hB, if_pos (by omega), if_pos (by omega)] at h
        exact Option.some.inj h
      · rw [Option.some.inj hx, Option.some.inj hy]
        exact hxy
    · rw [hla, hlb] at hlen
      refine Or.inr ⟨hlen, fun i hi => ?_⟩
      have h := hall i (by omega)
      rw [hA, hB, if_pos hi, if_pos (by omega)] at h
      exact Option.some.inj h
  · rintro (⟨k, hk, hall, hlt⟩ | ⟨hlen, hall⟩)
    · obtain ⟨hka, hkb⟩ := Nat.lt_min.mp hk
      refine Or.inl ⟨k, fun i hi => ?_, a.index k, b.index k, ?_, ?_, hlt⟩
      · rw [hA, hB, if_pos (by omega), if_pos (by omega), hall i hi]
      · rw [hA, if_pos hka]
      · rw [hB, if_pos hkb]
    · refine Or.inr ⟨by omega, fun i hi => ?_⟩
      rw [hla] at hi
      rw [hA, hB, if_pos hi, if_pos (by omega), hall i hi]

/-- Witness of C15: `{1,2,3} < {1,2,4}` and `{1,2} < {1,2,3}`. -/
theorem lt_is_lexicographical_witness :
    lt v123 v124 = true ∧ lt v12 v123 = true :=
  ⟨(lt_is_lexicographical v123 v124 (by unfold SimpleVector.Valid; decide)
      (by unfold SimpleVector.Valid; decide)).2
      (Or.inl ⟨2, by decide, by decide, by decide⟩),
   (lt_is_lexicographical v12 v123 (by unfold SimpleVector.Valid; decide)
      (by unfold SimpleVector.Valid; decide)).2
      (Or.inr ⟨by decide, by decide⟩)⟩

/-- C16. If `a == b` then neither `a < b` nor `b < a`. -/
theorem eq_excludes_lt [LinearOrder T] (a b : SimpleVector T) (h : eq a b = true) :
    lt a b = false ∧ lt b a = false := by
  rw [eq, std_equal_iff] at h
  rw [lt, lt, h]
  exact ⟨lex_irrefl _, lex_irrefl _⟩

/-- Witness of C16: `{1,2,3} == {1,2,3}` and `{1,2,3} < {1,2,3}` is false. -/
theorem eq_excludes_lt_witness :
    eq v123 v123 = true ∧ lt v123 v123 = false :=
  ⟨by decide, (eq_excludes_lt v123 v123 (by decide)).1⟩

/-- C17. With `<=` as `==` or `<`, `>` as the negation of that and `>=` as the
negation of `<`, over a linearly ordered element type: `a > b` is `b < a`,
`a <= b` is `!(b < a)` and `a >= b` is `b <= a`. -/
theorem derived_operators_agree [LinearOrder T] (a b : SimpleVector T) :
    gt a b = lt b a ∧ le a b = !(lt b a) ∧ ge a b = le b a := by
  have h1 : lt b a = !(eq a b || lt a b) := lex_flip a.content b.content
  have h2 : lt a b = !(eq b a || lt b a) := lex_flip b.content a.content
  refine ⟨?_, ?_, ?_⟩
  · rw [gt, h1]
  · rw [le, h1, Bool.not_not]
  · rw [ge, le, h2, Bool.not_not]


namespace SimpleVector

/-! ## Growth under repeated `PushBack` -/

theorem SIZE_MOD_eq : SIZE_MOD = 18446744073709551616 := by
  unfold SIZE_MOD
  norm_num

/-- Capacity after a `PushBack` on a valid sequence: unchanged while there is
room, otherwise `max(size + 1, 2 * capacity mod 2^64)`. -/
theorem PushBack_capacity_cases [Inhabited T] (raw : Nat → T) (mv : T → T)
    (S : SimpleVector T) (x : Arg T)
    (hv : S.Valid) (hfit : S.size_ + 1 < SIZE_MOD) :
    (S.size_ < S.capacity_ → (PushBack raw mv S x).capacity_ = S.capacity_) ∧
    (S.size_ = S.capacity_ →
      (PushBack raw mv S x).capacity_ = max (S.size_ + 1) (S.capacity_ * 2 % SIZE_MOD)) := by
  rw [PushBack_capacity, Nat.mod_eq_of_lt hfit]
  refine ⟨fun h => Resize_capacity_eq raw S _ (by omega), fun h => ?_⟩
  exact (Resize_realloc raw S _ hv (by omega)).2.1

theorem PushBack_valid [Inhabited T] (raw : Nat → T) (mv : T → T)
    (S : SimpleVector T) (x : Arg T)
    (hv : S.Valid) (hfit : S.size_ + 1 < SIZE_MOD) : (PushBack raw mv S x).Valid := by
  obtain ⟨h1, h2, h3⟩ := PushBack_cells raw mv S x hv hfit
  have hlen := length_content S hv
  obtain ⟨hc1, hc2⟩ := PushBack_capacity_cases raw mv S x hv hfit
  obtain ⟨hl, hs, hM⟩ := hv
  refine ⟨?_, by omega, ?_⟩
  · rw [h3, List.length_append, List.length_cons, List.length_replicate, hlen]
    omega
  · by_cases h : S.size_ < S.capacity_
    · rw [hc1 h]; exact hM
    · rw [hc2 (by omega)]
      have := Nat.mod_lt (S.capacity_ * 2) (Nat.lt_of_le_of_lt (Nat.zero_le _) hM)
      exact max_lt hfit this

theorem PushBack_doubled [Inhabited T] (raw : Nat → T) (mv : T → T)
    (S : SimpleVector T) (x : Arg T)
    (hv : S.Valid) (hd : S.Doubled) (hk : S.size_ + 1 ≤ SIZE_MOD / 2) :
    (PushBack raw mv S x).Doubled := by
  have hM := SIZE_MOD_eq
  have hfit : S.size_ + 1 < SIZE_MOD := by omega
  obtain ⟨h1, _, _⟩ := PushBack_cells raw mv S x hv hfit
  obtain ⟨hc1, hc2⟩ := PushBack_capacity_cases raw mv S x hv hfit
  right
  rcases hd with ⟨z1, z2⟩ | ⟨e, he, hle, hlt⟩
  · refine ⟨0, ?_, ?_, ?_⟩
    · rw [hc2 (by omega), z1, z2]; rfl
    · rw [hc2 (by omega), h1, z1, z2]; decide
    · rw [hc2 (by omega), h1, z1, z2]; decide
  · by_cases h : S.size_ < S.capacity_
    · rw [hc1 h, h1]
      exact ⟨e, he, by omega, by omega⟩
    · have heq : S.size_ = S.capacity_ := by omega
      have hmod : S.capacity_ * 2 % SIZE_MOD = S.capacity_ * 2 :=
        Nat.mod_eq_of_lt (by omega)
      have hmax : max (S.size_ + 1) (S.capacity_ * 2) = S.capacity_ * 2 :=
        Nat.max_eq_right (by omega)
      rw [hc2 heq, h1, hmod, hmax]
      refine ⟨e + 1, ?_, by omega, by omega⟩
      rw [he, Nat.pow_succ]

theorem push_all_append [Inhabited T] (raw : Nat → T) (mv : T → T) (S : SimpleVector T)
    (xs : List (Arg T)) (x : Arg T) : push_all raw mv S (xs ++ [x]) = PushBack raw mv (push_all raw mv S xs) x := by
  simp [push_all, List.foldl_append]

/-- After pushing `xs` one by one onto a valid, doubled sequence. -/
theorem push_all_doubled [Inhabited T] (raw : Nat → T) (mv : T → T) (S : SimpleVector T)
    (xs : List (Arg T)) (hv : S.Valid) (hd : S.Doubled) (hk : S.size_ + xs.length ≤ SIZE_MOD / 2) :
    (push_all raw mv S xs).Valid ∧ (push_all raw mv S xs).Doubled ∧
    (push_all raw mv S xs).size_ = S.size_ + xs.length := by
  induction xs using List.reverseRecOn with
  | nil => exact ⟨hv, hd, rfl⟩
  | append_singleton xs x ih =>
    have hlen : (xs ++ [x]).length = xs.length + 1 := by simp
    rw [hlen] at hk
    obtain ⟨iv, idd, isz⟩ := ih (by omega)
    have hM := SIZE_MOD_eq
    have hfit : (push_all raw mv S xs).size_ + 1 < SIZE_MOD := by omega
    rw [push_all_append]
    refine ⟨PushBack_valid raw mv _ x iv hfit, PushBack_doubled raw mv _ x iv idd (by omega), ?_⟩
    rw [(PushBack_cells raw mv _ x iv hfit).1, isz, hlen]
    omega

/-- A power of two below `2 * k` is at most every power of two that is at least
`k`. -/
theorem pow_two_least (e k : Nat) (hlt : 2 ^ e < 2 * k) (j : Nat)
    (hj : k ≤ 2 ^ j) : 2 ^ e ≤ 2 ^ j := by
  by_contra hc
  have h1 : 2 ^ j < 2 ^ e := Nat.lt_of_not_le hc
  have h2 : j < e := (Nat.pow_lt_pow_iff_right (by decide)).mp h1
  have h3 : 2 ^ (j + 1) ≤ 2 ^ e := Nat.pow_le_pow_right (by decide) h2
  rw [Nat.pow_succ] at h3
  omega

end SimpleVector


/-- C11. Starting from a default-constructed sequence, after `k >= 1` single
`PushBack` calls (the items `xs` and then `x`, `k = |xs| + 1`, with `k <= 2^63`)
the size is `k` and the capacity is the smallest power of two that is at least
`k`; the last push changes the capacity only if the size equalled the capacity
before it. -/
theorem PushBack_capacity_is_power_of_two [Inhabited T] (raw : Nat → T) (mv : T → T)
    (xs : List (Arg T)) (x : Arg T) (hk : xs.length + 1 ≤ SIZE_MOD / 2) :
    (push_all raw mv empty (xs ++ [x])).GetSize = xs.length + 1 ∧
    (∃ e : Nat, (push_all raw mv empty (xs ++ [x])).GetCapacity = 2 ^ e ∧
      xs.length + 1 ≤ 2 ^ e ∧ ∀ j : Nat, xs.length + 1 ≤ 2 ^ j → 2 ^ e ≤ 2 ^ j) ∧
    ((push_all raw mv empty xs).GetSize ≠ (push_all raw mv empty xs).GetCapacity →
      (push_all raw mv empty (xs ++ [x])).GetCapacity =
        (push_all raw mv empty xs).GetCapacity) := by
  simp only [GetSize_eq, GetCapacity_eq]
  have hM := SIZE_MOD_eq
  have hv0 : (empty : SimpleVector T).Valid :=
    ⟨rfl, Nat.le_refl _, by rw [hM]; exact Nat.zero_lt_succ _⟩
  have hd0 : (empty : SimpleVector T).Doubled := Or.inl ⟨rfl, rfl⟩
  have hz : (empty : SimpleVector T).size_ = 0 := rfl
  obtain ⟨v1, d1, s1⟩ := push_all_doubled raw mv empty (xs ++ [x]) hv0 hd0 (by
    rw [hz]; simp; omega)
  obtain ⟨v0, _, s0⟩ := push_all_doubled raw mv empty xs hv0 hd0 (by rw [hz]; omega)
  rw [hz, Nat.zero_add] at s1 s0
  have hlen : (xs ++ [x]).length = xs.length + 1 := by simp
  rw [hlen] at s1
  refine ⟨s1, ?_, fun hne => ?_⟩
  · rcases d1 with ⟨z1, _⟩ | ⟨e, he, hle, hlt⟩
    · omega
    · rw [s1] at hle hlt
      rw [he] at hle hlt
      exact ⟨e, he, hle, pow_two_least e _ hlt⟩
  · rw [push_all_append]
    have hfit : (push_all raw mv empty xs).size_ + 1 < SIZE_MOD := by omega
    have hlt : (push_all raw mv empty xs).size_ < (push_all raw mv empty xs).capacity_ :=
      Nat.lt_of_le_of_ne v0.2.1 hne
    exact (PushBack_capacity_cases raw mv _ x v0 hfit).1 hlt

/-- Witness of C11: five pushes give capacity 8, and the capacities seen on the
way are 1, 2, 4, 4, 8. -/
theorem PushBack_capacity_is_power_of_two_witness :
    (push_all junk moved_int empty
      [.outside 1, .outside 2, .outside 3, .outside 4, .outside 5]).GetSize = 5 ∧
    (push_all junk moved_int empty
      [.outside 1, .outside 2, .outside 3, .outside 4, .outside 5]).GetCapacity = 8 ∧
    [(push_all junk moved_int empty [.outside 1]).GetCapacity,
      (push_all junk moved_int empty [.outside 1, .outside 2]).GetCapacity,
      (push_all junk moved_int empty [.outside 1, .outside 2, .outside 3]).GetCapacity,
      (push_all junk moved_int empty
        [.outside 1, .outside 2, .outside 3, .outside 4]).GetCapacity] = [1, 2, 4, 4] :=
  have h := PushBack_capacity_is_power_of_two junk moved_int
    [.outside 1, .outside 2, .outside 3, .outside 4] (.outside 5) (by decide)
  ⟨h.1, by decide, by decide⟩

end SimpleVec
